import Mathlib

/-!
Verification of the ticker-extraction and ranking engine of `src/bot.py`
(SSSScoreboardBot). The Python source is shallowly embedded: strings are
`List Char` / `String`, Python dicts are insertion-ordered association
lists, Python sets of strings are `List String` used only through
membership, CPython ints are `Int`/`Nat`, and floats are `ℚ` (the one
transcendental computation, the `math.log1p`-based engagement proxy of
lines 79-82, is abstracted as an explicit function parameter `eng`; no
claim below depends on its value).  The regular expression
`TICKER_RE = (?<![A-Z0-9$])(\$?[A-Z]{1,5})(?![A-Z0-9])` (line 11) is
embedded as an executable backtracking scanner with the same semantics as
`re.finditer`: at each position, the negative lookbehind is checked, the
optional dollar and the greedy 1-5 letter run are matched with
backtracking against the negative lookahead, and scanning resumes after
the end of an emitted match.
-/

/-- The character class `[A-Z]` of TICKER_RE (src/bot.py line 11). -/
def upperChar (c : Char) : Bool := 65 ≤ c.toNat && c.toNat ≤ 90

/-- The character class `[0-9]` of TICKER_RE. -/
def digitChar (c : Char) : Bool := 48 ≤ c.toNat && c.toNat ≤ 57

/-- The character class `[A-Z0-9$]` of the negative lookbehind of TICKER_RE:
a match may not be immediately preceded by an uppercase letter, a digit or
a dollar sign. -/
def blockBefore (c : Char) : Bool := upperChar c || digitChar c || c == '$'

/-- The character class `[A-Z0-9]` of the negative lookahead of TICKER_RE:
a match may not be immediately followed by an uppercase letter or a digit. -/
def blockAfter (c : Char) : Bool := upperChar c || digitChar c

/-- A negative-character-class check: true when there is no character or when
the character is outside the class `bb`. -/
def noBlock (bb : Char → Bool) : Option Char → Bool
  | none => true
  | some c => !bb c

/-- The negative lookbehind `(?<![A-Z0-9$])`, given the character directly
before the current position (`none` at the start of the text). -/
def lookbehindOK (prev : Option Char) : Bool := noBlock blockBefore prev

/-- The negative lookahead `(?![A-Z0-9])`, given the rest of the text. -/
def lookaheadOK (s : List Char) : Bool :=
  match s with
  | [] => true
  | c :: _ => !blockAfter c

/-- One backtracking attempt of the greedy `[A-Z]{1,5}`: take exactly `k`
uppercase letters at the current position and check the lookahead behind
them.  Returns the matched letters and the rest of the text. -/
def tryLen (s : List Char) (k : Nat) : Option (List Char × List Char) :=
  if (s.take k).length = k ∧ (s.take k).all upperChar ∧ lookaheadOK (s.drop k)
  then some (s.take k, s.drop k) else none

/-- Backtracking alternative: the first attempt that succeeds. -/
def firstOf (a b : Option α) : Option α :=
  match a with
  | some r => some r
  | none => b

/-- The greedy `[A-Z]{1,5}(?![A-Z0-9])`: lengths are tried from 5 down to 1,
exactly as the backtracking regex engine does. -/
def matchLetters (s : List Char) : Option (List Char × List Char) :=
  firstOf (tryLen s 5) (firstOf (tryLen s 4) (firstOf (tryLen s 3)
    (firstOf (tryLen s 2) (tryLen s 1))))

/-- The group `\$?[A-Z]{1,5}(?![A-Z0-9])` at the current position.  When the
text starts with `$` the greedy `\$?` consumes it; if no letter run follows,
backtracking to the empty `\$?` also fails because `$` is not in `[A-Z]`. -/
def matchRaw (s : List Char) : Option (List Char × List Char) :=
  if s.head? = some '$' then
    (matchLetters s.tail).map fun r => ('$' :: r.1, r.2)
  else matchLetters s

/-- `re.finditer` over the text: at each position check the lookbehind and
attempt `matchRaw`; on success emit `(position, match)` and resume after the
match, otherwise advance one character.  `fuel` only forces structural
termination; `tickerMatches` supplies more fuel than the text's length, so
the fuel never runs out. -/
def scanAuxF : Nat → Option Char → Nat → List Char → List (Nat × List Char)
  | 0, _, _, _ => []
  | _ + 1, _, _, [] => []
  | fuel + 1, prev, i, c :: rest =>
    if lookbehindOK prev then
      match matchRaw (c :: rest) with
      | some (raw, rest2) => (i, raw) :: scanAuxF fuel raw.getLast? (i + raw.length) rest2
      | none => scanAuxF fuel (some c) (i + 1) rest
    else scanAuxF fuel (some c) (i + 1) rest

/-- Model of Python `str.upper()` on a character list (faithful on the ASCII
text the recognizer cares about). -/
def pyUpperChars (s : List Char) : List Char := s.map Char.toUpper

/-- Model of Python `str.upper()`. -/
def pyUpper (s : String) : String := String.mk (pyUpperChars s.data)

/-- Model of Python `str.lower()` (faithful on ASCII). -/
def pyLower (s : String) : String := String.mk (s.data.map Char.toLower)

/-- `TICKER_RE.finditer(text.upper())` (src/bot.py line 150): the raw
structural matches with their positions in the upper-cased text. -/
def tickerMatches (text : String) : List (Nat × List Char) :=
  let s := pyUpperChars text.data
  scanAuxF (s.length + 1) none 0 s

/-- Lines 135-144 of `is_candidate_ticker`: the checks applied to the
(unprefixed) token: reject 1-letter tokens, stopword members, and the fixed
reject-list `{"AAAA", "BBBB", "CCCC"}`; otherwise accept. -/
def tickerChecks (t : List Char) (stopwords : List String) : Bool :=
  if t.length = 1 then false
  else if stopwords.contains (String.mk t) then false
  else if ["AAAA", "BBBB", "CCCC"].contains (String.mk t) then false
  else true

/-- `is_candidate_ticker(raw, stopwords)` (src/bot.py lines 126-144): the
token is upper-cased, a leading `$` is stripped, a `$`-prefixed 1-letter
token is accepted unconditionally, and the remaining checks follow. -/
def is_candidate_ticker (raw : List Char) (stopwords : List String) : Bool :=
  let t := pyUpperChars raw
  if t.head? = some '$' then
    if t.tail.length = 1 then true else tickerChecks t.tail stopwords
  else tickerChecks t stopwords

/-- `raw[1:] if raw.startswith("$") else raw` (src/bot.py line 153). -/
def stripDollar (raw : List Char) : List Char :=
  if raw.head? = some '$' then raw.tail else raw

/-- `extract_tickers(text, stopwords)` (src/bot.py lines 146-154). -/
def extract_tickers (text : String) (stopwords : List String) : List String :=
  if text = "" then []
  else (tickerMatches text).filterMap fun m =>
    if is_candidate_ticker m.2 stopwords then some (String.mk (stripDollar m.2))
    else none

/-- The structural shape of a raw match of TICKER_RE: an optional `$`
followed by 1-5 uppercase letters. -/
def rawShape (raw : List Char) : Bool :=
  let l := if raw.head? = some '$' then raw.tail else raw
  !l.isEmpty && decide (l.length ≤ 5) && l.all upperChar

/-- The character immediately before offset `t` of `s`, where `prev` is the
character immediately before `s` itself (`none` when `s` starts the text). -/
def prevCharAt (prev : Option Char) (s : List Char) : Nat → Option Char
  | 0 => prev
  | t + 1 => s[t]?

/-- Declarative emission predicate: `raw` is a structurally shaped match
occupying offsets `[t, t + raw.length)` of `s`, not immediately preceded by
a character of the class `bb`, and not immediately followed by an uppercase
letter or digit.  With `bb := blockBefore` this is the semantics of
TICKER_RE; with `bb := claimBlockBefore` it is the (weaker) boundary rule
that C3 states. -/
def boundaryMatch (bb : Char → Bool) (prev : Option Char) (s : List Char)
    (t : Nat) (raw : List Char) : Bool :=
  rawShape raw && ((s.drop t).take raw.length == raw)
    && noBlock bb (prevCharAt prev s t)
    && lookaheadOK (s.drop (t + raw.length))

/-- The suppressing lookbehind class exactly as C3 words it: an uppercase
letter or a digit (the claim asserts no other character, e.g. a preceding
dollar sign, suppresses a match). -/
def claimBlockBefore (c : Char) : Bool := upperChar c || digitChar c

/-- The candidacy decision exactly as the spec words it (§4.2): rules applied
in order — accept `$`-prefixed single letters, reject bare single letters,
reject stopword members, reject the fixed degenerate-repeated-letter list,
otherwise accept the prefix-stripped canonical ticker. -/
def candidacySpecRules (raw : List Char) (sw : List String) : Option String :=
  let tok := if raw.head? = some '$' then raw.tail else raw
  if raw.head? = some '$' ∧ tok.length = 1 then some (String.mk tok)
  else if tok.length = 1 then none
  else if String.mk tok ∈ sw then none
  else if String.mk tok ∈ (["AAAA", "BBBB", "CCCC"] : List String) then none
  else some (String.mk tok)

/-- Python `dict` lookup (`d.get(k)`) on an insertion-ordered association
list: keys are unique, so the first hit is the entry. -/
def dget {β : Type} : List (String × β) → String → Option β
  | [], _ => none
  | (k', v') :: m, k => if k' = k then some v' else dget m k

/-- Python `dict` assignment `d[k] = v`: overwrite in place, keeping the
key's original insertion position, or append a new entry at the end. -/
def dset {β : Type} : List (String × β) → String → β → List (String × β)
  | [], k, v => [(k, v)]
  | (k', v') :: m, k, v =>
    if k' = k then (k', v) :: m else (k', v') :: dset m k v

/-- Python `set.add` on a set of strings modeled as a duplicate-free list. -/
def pyAdd (s : List String) (a : String) : List String :=
  if a ∈ s then s else s ++ [a]

def dedupFirstAux (seen : List String) : List String → List String
  | [] => []
  | x :: xs =>
    if x ∈ seen then dedupFirstAux seen xs
    else x :: dedupFirstAux (x :: seen) xs

/-- Model of Python `set(xs)`: the distinct elements of `xs`.  First-occurrence
order is chosen; CPython set iteration order is unspecified and nothing
proved below depends on the order, only on the underlying set. -/
def dedupFirst (l : List String) : List String := dedupFirstAux [] l

/-- The best-evidence update of src/bot.py lines 201-203 and 88-91:
`prev = best.get(t); if prev is None or strength > prev[0]: best[t] = obs`. -/
def bestStep {α : Type} [LinearOrder α] (prev : Option (α × String))
    (obs : α × String) : Option (α × String) :=
  match prev with
  | none => some obs
  | some p => if p.1 < obs.1 then some obs else some p

/-- Folding the best-evidence update over a ticker's observation sequence. -/
def bestFold {α : Type} [LinearOrder α] (l : List (α × String)) :
    Option (α × String) :=
  l.foldl bestStep none

/-- The first observation attaining the maximum strength (what the spec says
the retained evidence is). -/
def firstMax {α : Type} [LinearOrder α] (l : List (α × String)) :
    Option (α × String) :=
  l.find? fun p => l.all fun q => decide (q.1 ≤ p.1)

/-- Python string comparison `<`: lexicographic on code points. -/
def charListLt : List Char → List Char → Bool
  | [], [] => false
  | [], _ :: _ => true
  | _ :: _, [] => false
  | c :: a, d :: b => c.toNat < d.toNat || (c.toNat = d.toNat && charListLt a b)

/-- Python `str` `<`. -/
def pyStrLt (a b : String) : Bool := charListLt a.data b.data

/-- Python tuple comparison on a sort key `(metric, ticker)`. -/
def keyLt {α : Type} [LinearOrder α] (x y : α × String) : Bool :=
  decide (x.1 < y.1) || (decide (x.1 = y.1) && pyStrLt x.2 y.2)

/-- Stable insertion of `a` after every already-placed element it does not
strictly precede. -/
def insStable {γ : Type} (le : γ → γ → Bool) (a : γ) : List γ → List γ
  | [] => [a]
  | b :: l => if le b a then b :: insStable le a l else a :: b :: l

/-- Python `sorted(l, key=k, reverse=True)`: a stable sort with respect to
the total preorder `le a b := k b ≤ k a`.  A stable sort's output is unique,
so stable insertion sort models CPython's stable sort exactly. -/
def pySortedRev {γ : Type} (le : γ → γ → Bool) (l : List γ) : List γ :=
  l.foldl (fun acc a => insStable le a acc) []

/-- A top-level comment record as `build_scoreboard` reads it: `hasBody`
models `hasattr(c, "body")`, `author` is `None` for deleted accounts,
`score` is `None` when the attribute is missing (`getattr(c, "score", 0)`),
`permalink` is the reference locator. -/
structure CommentRec where
  hasBody : Bool
  author : Option String
  body : String
  score : Option Int
  permalink : String
deriving DecidableEq

/-- `"https://www.reddit.com" + c.permalink` (line 200). -/
def commentLink (c : CommentRec) : String := "https://www.reddit.com" ++ c.permalink

/-- The two per-run tables of `build_scoreboard` (lines 183-184). -/
structure SBState where
  ticker_authors : List (String × List String)
  ticker_best_comment : List (String × (Int × String))
deriving DecidableEq

/-- The body of the inner `for t in tickers` loop (lines 196-203): add the
normalized author to the ticker's author set and update best evidence under
strict `>`. -/
def sbTickerUpd (author : String) (sc : Int) (link : String) (st : SBState)
    (t : String) : SBState :=
  { ticker_authors :=
      dset st.ticker_authors t (pyAdd ((dget st.ticker_authors t).getD []) author),
    ticker_best_comment :=
      match dget st.ticker_best_comment t with
      | none => dset st.ticker_best_comment t (sc, link)
      | some p =>
        if p.1 < sc then dset st.ticker_best_comment t (sc, link)
        else st.ticker_best_comment }

/-- One iteration of the comment loop (lines 186-203): skip records without a
body or author, normalize the author case-insensitively, extract the distinct
tickers, and fold the per-ticker update. -/
def processComment (stopwords : List String) (st : SBState) (c : CommentRec) :
    SBState :=
  if !c.hasBody then st
  else
    match c.author with
    | none => st
    | some a =>
      let tickers := dedupFirst (extract_tickers c.body stopwords)
      if tickers.isEmpty then st
      else tickers.foldl (sbTickerUpd (pyLower a) (c.score.getD 0) (commentLink c)) st

/-- An output row of `build_scoreboard` (lines 212-216). -/
structure ScoreItem where
  ticker : String
  unique_authors : Nat
  best_comment : Option String
deriving DecidableEq

/-- The sort key of line 205: `(len(kv[1]), kv[0])`. -/
def sbKey (kv : String × List String) : Nat × String := (kv.2.length, kv.1)

/-- `sorted(..., key=lambda kv: (len(kv[1]), kv[0]), reverse=True)`: `a` may
precede `b` exactly when `a`'s key is not below `b`'s. -/
def sbLe (a b : String × List String) : Bool := !keyLt (sbKey a) (sbKey b)

/-- `build_scoreboard(thread, stopwords, max_tickers)` (lines 177-217), with
the already-fetched top-level comments as input (fetching is the external
collaborator). -/
def build_scoreboard (comments : List CommentRec) (stopwords : List String)
    (max_tickers : Nat) : List ScoreItem :=
  let st := comments.foldl (processComment stopwords) ⟨[], []⟩
  let ranked := (pySortedRev sbLe st.ticker_authors).take max_tickers
  ranked.map fun kv =>
    { ticker := kv.1, unique_authors := kv.2.length,
      best_comment := (dget st.ticker_best_comment kv.1).map (·.2) }

/-- A Python scalar configuration value. -/
inductive PyVal where
  | none
  | bool (b : Bool)
  | int (n : Int)
  | float (q : ℚ)
  | str (s : String)
deriving DecidableEq

/-- Python truthiness (`bool(v)`). -/
def pyTruthy : PyVal → Bool
  | .none => false
  | .bool b => b
  | .int n => n ≠ 0
  | .float q => q ≠ 0
  | .str s => s ≠ ""

/-- Python `v or d`. -/
def pyOr (v d : PyVal) : PyVal := if pyTruthy v then v else d

/-- Python `dict.get(key, default)`: the stored value when the key is
present, the default otherwise. -/
def cget (v : Option PyVal) (d : PyVal) : PyVal := v.getD d

def digitsToNat (l : List Char) : Nat := l.foldl (fun a c => 10 * a + (c.toNat - 48)) 0

/-- Core of the decimal-literal grammar Python `float()` accepts: digits with
an optional fractional part (exponents, underscores, infinities and
surrounding whitespace are outside the modeled grammar; every claim below
uses only plain literals or non-numeric strings). -/
def parseUnsigned? (l : List Char) : Option ℚ :=
  let intPart := l.takeWhile digitChar
  let rest := l.dropWhile digitChar
  match rest with
  | [] => if intPart.isEmpty then none else some (digitsToNat intPart)
  | '.' :: frac =>
    if frac.all digitChar ∧ ¬(intPart.isEmpty ∧ frac.isEmpty) then
      some ((digitsToNat intPart : ℚ) + (digitsToNat frac : ℚ) / (10 ^ frac.length))
    else none
  | _ => none

/-- Python `float(string)` parsing, with an optional sign. -/
def parseFloat? (s : String) : Option ℚ :=
  match s.data with
  | '+' :: r => parseUnsigned? r
  | '-' :: r => (parseUnsigned? r).map fun q => -q
  | r => parseUnsigned? r

/-- Python `int(string)` parsing: an optional sign and digits only. -/
def parseIntStr? (s : String) : Option Int :=
  match s.data with
  | '+' :: r => if r.all digitChar ∧ ¬r.isEmpty then some (digitsToNat r : Int) else none
  | '-' :: r => if r.all digitChar ∧ ¬r.isEmpty then some (-(digitsToNat r : Int)) else none
  | r => if r.all digitChar ∧ ¬r.isEmpty then some (digitsToNat r : Int) else none

/-- Python `float(v)`: numeric values convert, non-numeric strings and `None`
raise (modeled as `Except.error`). -/
def pyFloat : PyVal → Except String ℚ
  | .none => .error "float() argument must be a string or a real number, not NoneType"
  | .bool b => .ok (if b then 1 else 0)
  | .int n => .ok (n : ℚ)
  | .float q => .ok q
  | .str s =>
    match parseFloat? s with
    | some q => .ok q
    | none => .error ("could not convert string to float: " ++ s)

/-- Python `int(v)`: floats truncate toward zero, non-numeric strings and
`None` raise. -/
def pyInt : PyVal → Except String Int
  | .none => .error "int() argument must be a string or a real number, not NoneType"
  | .bool b => .ok (if b then 1 else 0)
  | .int n => .ok n
  | .float q => .ok (q.num.tdiv q.den)
  | .str s =>
    match parseIntStr? s with
    | some n => .ok n
    | none => .error ("invalid literal for int() with base 10: " ++ s)

/-- Python `str(v)` (the float branch is schematic; no claim depends on it). -/
def pyStr : PyVal → String
  | .none => "None"
  | .bool b => if b then "True" else "False"
  | .int n => toString n
  | .float q => toString q.num ++ "/" ++ toString q.den
  | .str s => s

def isSpaceChar (c : Char) : Bool :=
  c == ' ' || c == '\t' || c == '\n' || c == '\r' || c == '\x0b' || c == '\x0c'

/-- Python `str.strip()` (ASCII whitespace). -/
def pyStrip (s : String) : String :=
  String.mk (((s.data.dropWhile isSpaceChar).reverse.dropWhile isSpaceChar).reverse)

/-- Line 47: `weight = float(s.get("weight", 0.35) or 0.35)`. -/
def cfgWeight (v : Option PyVal) : Except String ℚ :=
  pyFloat (pyOr (cget v (.float (0.35 : ℚ))) (.float (0.35 : ℚ)))

/-- Line 49: `limit_posts = int(s.get("limit_posts", 40) or 40)`. -/
def cfgLimitPosts (v : Option PyVal) : Except String Int :=
  pyInt (pyOr (cget v (.int 40)) (.int 40))

/-- Line 50: `lookback_hours = int(s.get("lookback_hours", 24) or 24)`. -/
def cfgLookbackHours (v : Option PyVal) : Except String Int :=
  pyInt (pyOr (cget v (.int 24)) (.int 24))

/-- Line 37: `max_out = int(cfg.get("cross_max_tickers", 8) or 8)`. -/
def cfgMaxTickers (v : Option PyVal) : Except String Int :=
  pyInt (pyOr (cget v (.int 8)) (.int 8))

/-- Line 48: `mode = str(s.get("mode", "hot")).lower().strip()`. -/
def cfgMode (v : Option PyVal) : String := pyStrip (pyLower (pyStr (cget v (.str "hot"))))

/-- A fetched post as the radar reads it; `score`/`num_comments` are `none`
when the attribute is missing. -/
structure PostRec where
  created_utc : ℚ
  title : String
  selftext : String
  score : Option ℚ
  num_comments : Option ℚ
  permalink : String
deriving DecidableEq

/-- `_within_hours(created_utc, hours)` (lines 26-28): the creation time is
at or after `now` minus the lookback window.  Times are seconds since the
epoch; `datetime.now(timezone.utc)` is passed in as `now`. -/
def within_hours (created_utc : ℚ) (hours : Int) (now : ℚ) : Bool :=
  decide (now - ((3600 * hours : Int) : ℚ) ≤ created_utc)

/-- The three per-run tables of the radar (lines 39-41). -/
structure RadarState where
  agg_score : List (String × ℚ)
  best_link : List (String × (ℚ × String))
  best_src : List (String × String)
deriving DecidableEq

/-- The body of the inner `for t in tickers` loop (lines 85-91): accumulate
`inc = weight * engagement` into the ticker's total and update the best
link/source under strict `>`. -/
def radarTickerUpd (inc : ℚ) (url : String) (name : String) (st : RadarState)
    (t : String) : RadarState :=
  let st1 : RadarState :=
    { st with agg_score := dset st.agg_score t ((dget st.agg_score t).getD 0 + inc) }
  match dget st1.best_link t with
  | none =>
    { st1 with
      best_link := dset st1.best_link t (inc, url)
      best_src := dset st1.best_src t ("r/" ++ name) }
  | some p =>
    if p.1 < inc then
      { st1 with
        best_link := dset st1.best_link t (inc, url)
        best_src := dset st1.best_src t ("r/" ++ name) }
    else st1

/-- One iteration of the post loop (lines 64-91).  `eng` abstracts the
engagement proxy of lines 79-82 (`1 + log1p(score) + 0.5*log1p(comments)`,
clamped to 12.0): it is floating-point and transcendental, and no claim
depends on its value, so it is an explicit function parameter. -/
def procPost (eng : PostRec → ℚ) (stopwords : List String) (weight : ℚ)
    (lookback_hours : Int) (now : ℚ) (name : String) (st : RadarState)
    (post : PostRec) : RadarState :=
  if !within_hours post.created_utc lookback_hours now then st
  else
    let txt := pyStrip (post.title ++ "\n" ++ post.selftext)
    let tickers := dedupFirst (extract_tickers txt stopwords)
    if tickers.isEmpty then st
    else
      tickers.foldl
        (radarTickerUpd (weight * eng post) ("https://www.reddit.com" ++ post.permalink)
          name) st

/-- A configured source: the raw configuration dict entries (each `none` when
the key is missing) plus the post sequence its listing yields — the fetch
itself (praw calls, lines 52-62) is the external collaborator. -/
structure SubSource where
  name : Option PyVal
  weight : Option PyVal
  mode : Option PyVal
  limit_posts : Option PyVal
  lookback_hours : Option PyVal
  posts : List PostRec
deriving DecidableEq

/-- One iteration of the source loop (lines 43-91): skip blank names, parse
the numeric configuration (each parse can raise, aborting the whole
aggregation), and fold the post loop over the fetched posts, capped by the
parsed `limit_posts`.  The parsed `mode` (line 48) only selects which praw
listing is fetched — an external, total operation — so it does not appear
here. -/
def procSub (eng : PostRec → ℚ) (now : ℚ) (stopwords : List String)
    (st : RadarState) (s : SubSource) : Except String RadarState :=
  let name := pyStrip (pyStr (cget s.name (.str "")))
  if name = "" then .ok st
  else
    match cfgWeight s.weight with
    | .error e => .error e
    | .ok weight =>
      match cfgLimitPosts s.limit_posts with
      | .error e => .error e
      | .ok limit_posts =>
        match cfgLookbackHours s.lookback_hours with
        | .error e => .error e
        | .ok lookback_hours =>
          .ok ((s.posts.take limit_posts.toNat).foldl
            (procPost eng stopwords weight lookback_hours now name) st)

/-- The radar's configuration dict (`cross_subs_enabled`, `cross_subs`,
`cross_max_tickers`). -/
structure RadarCfg where
  cross_subs_enabled : Option PyVal
  cross_subs : List SubSource
  cross_max_tickers : Option PyVal
deriving DecidableEq

/-- An output row of the radar (lines 96-101). -/
structure RadarItem where
  ticker : String
  score : ℚ
  best_post : Option String
  best_src : Option String
deriving DecidableEq

/-- Python `round(x, 2)` on the model rationals (CPython rounds the nearest
double half-to-even; no claim depends on the convention at the half). -/
def round2 (q : ℚ) : ℚ := ((round (q * 100) : ℤ) : ℚ) / 100

/-- Line 93 comparison: key `(kv[1], kv[0])`, descending. -/
def radarLe (a b : String × ℚ) : Bool := !keyLt (a.2, a.1) (b.2, b.1)

/-- The source loop threaded over the configured sources; an error from any
source's configuration parse aborts the run. -/
def radarAggAux (eng : PostRec → ℚ) (now : ℚ) (stopwords : List String) :
    RadarState → List SubSource → Except String RadarState
  | st, [] => .ok st
  | st, s :: subs =>
    match procSub eng now stopwords st s with
    | .error e => .error e
    | .ok st2 => radarAggAux eng now stopwords st2 subs

/-- The source loop folded over all configured sources (lines 43-91),
starting from the empty tables of lines 39-41. -/
def radarAgg (eng : PostRec → ℚ) (now : ℚ) (cfg : RadarCfg)
    (stopwords : List String) : Except String RadarState :=
  radarAggAux eng now stopwords ⟨[], [], []⟩ cfg.cross_subs

/-- An output row built from the final state (lines 95-101). -/
def mkRadarItem (st : RadarState) (kv : String × ℚ) : RadarItem :=
  { ticker := kv.1, score := round2 kv.2,
    best_post := (dget st.best_link kv.1).map (·.2),
    best_src := dget st.best_src kv.1 }

/-- `build_cross_sub_radar(r, cfg, stopwords)` (lines 30-102). -/
def build_cross_sub_radar (eng : PostRec → ℚ) (now : ℚ) (cfg : RadarCfg)
    (stopwords : List String) : Except String (List RadarItem) :=
  if !pyTruthy (cget cfg.cross_subs_enabled (.bool false)) then .ok []
  else
    match cfgMaxTickers cfg.cross_max_tickers with
    | .error e => .error e
    | .ok max_out =>
      match radarAgg eng now cfg stopwords with
      | .error e => .error e
      | .ok st =>
        .ok (((pySortedRev radarLe st.agg_score).take max_out.toNat).map
          (mkRadarItem st))

/-- The running best of `bestStep`, started at `b`. -/
def bestPair {α : Type} [LinearOrder α] (b : α × String) :
    List (α × String) → α × String
  | [] => b
  | x :: l => if b.1 < x.1 then bestPair x l else bestPair b l

/-- The sequence of (score, link) observations for ticker `t` that the
comment loop of `build_scoreboard` feeds the best-evidence update: one
observation per qualifying comment that mentions `t`. -/
def sbObs (comments : List CommentRec) (stopwords : List String) (t : String) :
    List (Int × String) :=
  comments.filterMap fun c =>
    if c.hasBody then
      match c.author with
      | some _ =>
        if t ∈ dedupFirst (extract_tickers c.body stopwords) then
          some (c.score.getD 0, commentLink c)
        else none
      | none => none
    else none

/-- The (contribution, link) observations for ticker `t` that one source's
post loop feeds the best-link update: one per in-window post mentioning `t`. -/
def radarObs (eng : PostRec → ℚ) (stopwords : List String) (weight : ℚ)
    (lookback_hours : Int) (now : ℚ) (posts : List PostRec) (t : String) :
    List (ℚ × String) :=
  posts.filterMap fun post =>
    if within_hours post.created_utc lookback_hours now then
      if t ∈ dedupFirst
          (extract_tickers (pyStrip (post.title ++ "\n" ++ post.selftext)) stopwords) then
        some (weight * eng post, "https://www.reddit.com" ++ post.permalink)
      else none
    else none

/-- The pre-rounding ranking metric of a ticker in the final radar state
(`agg_score.get(t, 0.0)`). -/
def radarMetric (st : RadarState) (t : String) : ℚ := (dget st.agg_score t).getD 0

/-- Modelled from the spec: the stopword file `tickers_stopwords.txt` is data
of this repository that is not under src/, so its contents are unknown; the
spec's boundary test (§8) requires that `said` is suppressed as a stopword
while `AAPL` and `F` are not, so the modelled stopword set is exactly
`{"SAID"}`. -/
def modelStopwords : List String := ["SAID"]

/-! ### Lemmas and claim theorems -/

theorem upperChar_ne_dollar {c : Char} (h : upperChar c = true) : c ≠ '$' := by
  rintro rfl; simp [upperChar] at h

theorem blockBefore_of_upper {c : Char} (h : upperChar c = true) :
    blockBefore c = true := by
  simp [blockBefore, h]

theorem blockBefore_dollar : blockBefore '$' = true := by decide

theorem rawShape_ne_nil {raw : List Char} (h : rawShape raw = true) : raw ≠ [] := by
  cases raw with
  | nil => simp [rawShape] at h
  | cons c l => simp

theorem rawShape_chars {raw : List Char} (h : rawShape raw = true) :
    ∀ c ∈ raw, blockBefore c = true := by
  intro c hc
  cases raw with
  | nil => cases hc
  | cons c0 l =>
    by_cases h0 : c0 = '$'
    · subst h0
      simp only [rawShape, List.head?_cons, if_pos rfl, List.tail_cons,
        Bool.and_eq_true, List.all_eq_true] at h
      rw [List.mem_cons] at hc
      rcases hc with rfl | hc
      · exact blockBefore_dollar
      · exact blockBefore_of_upper (h.2 c hc)
    · have hne : (c0 :: l).head? ≠ some '$' := by
        simp [List.head?_cons, h0]
      simp only [rawShape, if_neg hne, Bool.and_eq_true, List.all_eq_true] at h
      exact blockBefore_of_upper (h.2 c hc)

theorem tryLen_spec {s l rest : List Char} {k : Nat}
    (h : tryLen s k = some (l, rest)) :
    l = s.take k ∧ rest = s.drop k ∧ l.length = k ∧ l.all upperChar = true ∧
      lookaheadOK rest = true := by
  unfold tryLen at h
  split at h
  · next hc =>
    obtain ⟨h1, h2, h3⟩ := hc
    injection h with h
    injection h with hl hr
    subst hl; subst hr
    exact ⟨rfl, rfl, h1, h2, h3⟩
  · exact absurd h (by simp)

theorem tryLen_full (s : List Char) (k : Nat)
    (h1 : (s.take k).length = k) (h2 : (s.take k).all upperChar = true)
    (h3 : lookaheadOK (s.drop k) = true) :
    tryLen s k = some (s.take k, s.drop k) := by
  unfold tryLen
  rw [if_pos ⟨h1, h2, h3⟩]

theorem tryLen_none_of_gt {s l : List Char} {k : Nat}
    (hpre : l = s.take l.length)
    (hla : lookaheadOK (s.drop l.length) = true) (hk : l.length < k) :
    tryLen s k = none := by
  unfold tryLen
  rw [if_neg]
  rintro ⟨h1, h2, -⟩
  have hns : l.length ≤ s.length := by
    have := congrArg List.length hpre
    simp only [List.length_take] at this
    omega
  have hks : k ≤ s.length := by
    have := List.length_take k s
    omega
  have hlt : l.length < s.length := lt_of_lt_of_le hk hks
  have hdne : s.drop l.length ≠ [] := by
    intro hnil
    have := congrArg List.length hnil
    simp only [List.length_drop, List.length_nil] at this
    omega
  obtain ⟨c, d, hd⟩ := List.exists_cons_of_ne_nil hdne
  have hcup : upperChar c = false := by
    rw [hd] at hla
    simp only [lookaheadOK, Bool.not_eq_eq_eq_not, Bool.not_true] at hla
    simp only [blockAfter, Bool.or_eq_false_iff] at hla
    exact hla.1
  have hmem : c ∈ s.take k := by
    have hsplit : s.take k = s.take l.length ++ (s.drop l.length).take (k - l.length) := by
      rw [← List.take_add]
      congr 1
      omega
    rw [hsplit, hd]
    have : 0 < k - l.length := by omega
    obtain ⟨m, hm⟩ := Nat.exists_eq_succ_of_ne_zero (by omega : k - l.length ≠ 0)
    rw [hm]
    simp [List.take_succ_cons]
  rw [List.all_eq_true] at h2
  have := h2 c hmem
  rw [hcup] at this
  cases this

theorem matchLetters_case {s l rest : List Char} {k : Nat} (hk1 : 1 ≤ k) (hk5 : k ≤ 5)
    (h : tryLen s k = some (l, rest)) :
    l ≠ [] ∧ l.length ≤ 5 ∧ l.all upperChar = true ∧ l = s.take l.length ∧
      rest = s.drop l.length ∧ lookaheadOK rest = true := by
  obtain ⟨hl, hr, hlen, hall, hla⟩ := tryLen_spec h
  subst hl
  subst hr
  refine ⟨?_, by omega, hall, by rw [hlen], by rw [hlen], hla⟩
  intro hnil
  rw [hnil] at hlen
  simp at hlen
  omega

theorem matchLetters_spec {s l rest : List Char} (h : matchLetters s = some (l, rest)) :
    l ≠ [] ∧ l.length ≤ 5 ∧ l.all upperChar = true ∧ l = s.take l.length ∧
      rest = s.drop l.length ∧ lookaheadOK rest = true := by
  unfold matchLetters at h
  cases h5 : tryLen s 5 with
  | some r =>
    rw [h5] at h
    simp only [firstOf] at h
    rw [h] at h5
    exact matchLetters_case (by omega) (by omega) h5
  | none =>
    rw [h5] at h
    simp only [firstOf] at h
    cases h4 : tryLen s 4 with
    | some r =>
      rw [h4] at h
      simp only [firstOf] at h
      rw [h] at h4
      exact matchLetters_case (by omega) (by omega) h4
    | none =>
      rw [h4] at h
      simp only [firstOf] at h
      cases h3 : tryLen s 3 with
      | some r =>
        rw [h3] at h
        simp only [firstOf] at h
        rw [h] at h3
        exact matchLetters_case (by omega) (by omega) h3
      | none =>
        rw [h3] at h
        simp only [firstOf] at h
        cases h2 : tryLen s 2 with
        | some r =>
          rw [h2] at h
          simp only [firstOf] at h
          rw [h] at h2
          exact matchLetters_case (by omega) (by omega) h2
        | none =>
          rw [h2] at h
          simp only [firstOf] at h
          exact matchLetters_case (by omega) (by omega) h

theorem matchLetters_complete {s l : List Char} (hne : l ≠ []) (hlen : l.length ≤ 5)
    (hall : l.all upperChar = true) (hpre : l = s.take l.length)
    (hla : lookaheadOK (s.drop l.length) = true) :
    matchLetters s = some (l, s.drop l.length) := by
  have hn1 : 1 ≤ l.length := List.length_pos.mpr hne
  have hfull : tryLen s l.length = some (l, s.drop l.length) := by
    have hlen' : (s.take l.length).length = l.length := by rw [← hpre]
    have h2 : (s.take l.length).all upperChar = true := by rw [← hpre]; exact hall
    have := tryLen_full s l.length hlen' h2 hla
    rw [← hpre] at this
    exact this
  unfold matchLetters
  have hcase : l.length = 1 ∨ l.length = 2 ∨ l.length = 3 ∨ l.length = 4 ∨ l.length = 5 := by
    omega
  rcases hcase with h | h | h | h | h
  · rw [tryLen_none_of_gt (k := 5) hpre hla (by omega),
      tryLen_none_of_gt (k := 4) hpre hla (by omega),
      tryLen_none_of_gt (k := 3) hpre hla (by omega),
      tryLen_none_of_gt (k := 2) hpre hla (by omega)]
    simp only [firstOf]
    rw [← h]
    exact hfull
  · rw [tryLen_none_of_gt (k := 5) hpre hla (by omega),
      tryLen_none_of_gt (k := 4) hpre hla (by omega),
      tryLen_none_of_gt (k := 3) hpre hla (by omega)]
    simp only [firstOf]
    rw [← h, hfull]
  · rw [tryLen_none_of_gt (k := 5) hpre hla (by omega),
      tryLen_none_of_gt (k := 4) hpre hla (by omega)]
    simp only [firstOf]
    rw [← h, hfull]
  · rw [tryLen_none_of_gt (k := 5) hpre hla (by omega)]
    simp only [firstOf]
    rw [← h, hfull]
  · simp only [firstOf]
    rw [← h, hfull]

theorem matchRaw_spec {s raw rest : List Char} (h : matchRaw s = some (raw, rest)) :
    rawShape raw = true ∧ raw = s.take raw.length ∧ rest = s.drop raw.length ∧
      lookaheadOK rest = true := by
  unfold matchRaw at h
  by_cases hd : s.head? = some '$'
  · rw [if_pos hd] at h
    obtain ⟨s', rfl⟩ : ∃ s', s = '$' :: s' := by
      cases s with
      | nil => simp at hd
      | cons c t =>
        simp only [List.head?_cons, Option.some.injEq] at hd
        exact ⟨t, by rw [hd]⟩
    simp only [List.tail_cons] at h
    cases hml : matchLetters s' with
    | none => rw [hml] at h; simp at h
    | some r =>
      obtain ⟨l, r2⟩ := r
      rw [hml] at h
      simp only [Option.map_some', Option.some.injEq, Prod.mk.injEq] at h
      obtain ⟨h1, h2⟩ := h
      subst h1
      subst h2
      obtain ⟨hne, hlen, hall, hpre, hrest, hla⟩ := matchLetters_spec hml
      refine ⟨?_, ?_, ?_, hla⟩
      · simp only [rawShape, List.head?_cons, if_pos rfl, List.tail_cons]
        simp [hne, hlen, hall]
      · simp only [List.length_cons, List.take_succ_cons, List.cons.injEq, true_and]
        exact hpre
      · simp only [List.length_cons, List.drop_succ_cons]
        exact hrest
  · rw [if_neg hd] at h
    obtain ⟨hne, hlen, hall, hpre, hrest, hla⟩ := matchLetters_spec h
    refine ⟨?_, hpre, hrest, hla⟩
    have hhd : ¬raw.head? = some '$' := by
      cases raw with
      | nil => simp
      | cons c t =>
        simp only [List.head?_cons, Option.some.injEq]
        rw [List.all_eq_true] at hall
        exact upperChar_ne_dollar (hall c (by simp))
    simp only [rawShape, if_neg hhd]
    simp [hne, hlen, hall]

theorem rawShape_dollar_cons (t : List Char) :
    rawShape ('$' :: t) = (!t.isEmpty && decide (t.length ≤ 5) && t.all upperChar) := by
  simp [rawShape]

theorem rawShape_cons_of_ne {c : Char} (hc : c ≠ '$') (t : List Char) :
    rawShape (c :: t) =
      (!(c :: t).isEmpty && decide ((c :: t).length ≤ 5) && (c :: t).all upperChar) := by
  simp [rawShape, hc]

theorem rawShape_parts {l : List Char}
    (h : (!l.isEmpty && decide (l.length ≤ 5) && l.all upperChar) = true) :
    l ≠ [] ∧ l.length ≤ 5 ∧ l.all upperChar = true := by
  rw [Bool.and_eq_true, Bool.and_eq_true] at h
  obtain ⟨⟨h1, h2⟩, h3⟩ := h
  refine ⟨?_, of_decide_eq_true h2, h3⟩
  intro hnil
  subst hnil
  simp at h1

theorem matchRaw_complete {s raw : List Char} (hshape : rawShape raw = true)
    (hpre : raw = s.take raw.length)
    (hla : lookaheadOK (s.drop raw.length) = true) :
    matchRaw s = some (raw, s.drop raw.length) := by
  obtain ⟨c, t, rfl⟩ : ∃ c t, raw = c :: t := by
    cases raw with
    | nil => exact absurd rfl (rawShape_ne_nil hshape)
    | cons c t => exact ⟨c, t, rfl⟩
  obtain ⟨s', rfl⟩ : ∃ s', s = c :: s' := by
    cases s with
    | nil => simp at hpre
    | cons c0 s' =>
      simp only [List.length_cons, List.take_succ_cons, List.cons.injEq] at hpre
      exact ⟨s', by rw [hpre.1]⟩
  have hpre' : t = s'.take t.length := by
    simp only [List.length_cons, List.take_succ_cons, List.cons.injEq] at hpre
    exact hpre.2
  have hla' : lookaheadOK (s'.drop t.length) = true := by
    simpa only [List.length_cons, List.drop_succ_cons] using hla
  unfold matchRaw
  by_cases hc : c = '$'
  · subst hc
    rw [if_pos (by simp)]
    simp only [List.tail_cons]
    rw [rawShape_dollar_cons] at hshape
    obtain ⟨hne, hlen, hall⟩ := rawShape_parts hshape
    rw [matchLetters_complete hne hlen hall hpre' hla']
    simp only [Option.map_some', List.length_cons, List.drop_succ_cons]
  · rw [if_neg (by simp [hc])]
    rw [rawShape_cons_of_ne hc] at hshape
    obtain ⟨hne, hlen, hall⟩ := rawShape_parts hshape
    exact matchLetters_complete hne hlen hall hpre hla

theorem prevCharAt_some_cons (c : Char) (s : List Char) (t : Nat) :
    prevCharAt (some c) s t = (c :: s)[t]? := by
  cases t with
  | zero => simp [prevCharAt]
  | succ t => simp [prevCharAt]

theorem boundaryMatch_cons (bb : Char → Bool) (prev : Option Char) (c : Char)
    (s : List Char) (t : Nat) (raw : List Char) :
    boundaryMatch bb prev (c :: s) (t + 1) raw = boundaryMatch bb (some c) s t raw := by
  unfold boundaryMatch
  have h1 : prevCharAt prev (c :: s) (t + 1) = prevCharAt (some c) s t :=
    (prevCharAt_some_cons c s t).symm
  have h2 : (c :: s).drop (t + 1 + raw.length) = s.drop (t + raw.length) := by
    have h3 : t + 1 + raw.length = (t + raw.length) + 1 := by omega
    rw [h3, List.drop_succ_cons]
  rw [List.drop_succ_cons, h1, h2]

theorem boundaryMatch_append (bb : Char → Bool) (prev : Option Char) (c : Char)
    (pre : List Char) (s : List Char) (t : Nat) (raw : List Char) :
    boundaryMatch bb prev ((c :: pre) ++ s) ((c :: pre).length + t) raw =
      boundaryMatch bb (c :: pre).getLast? s t raw := by
  induction pre generalizing prev c with
  | nil =>
    simp only [List.cons_append, List.nil_append, List.length_cons, List.length_nil]
    rw [show 0 + 1 + t = t + 1 from by omega, boundaryMatch_cons]
    rfl
  | cons d pre' ih =>
    rw [List.cons_append,
      show (c :: d :: pre').length + t = ((d :: pre').length + t) + 1 from by
        simp only [List.length_cons]; omega,
      boundaryMatch_cons, ih (some c) d, List.getLast?_cons_cons]

theorem boundaryMatch_zero_iff {bb : Char → Bool} {prev : Option Char}
    {s raw : List Char} :
    boundaryMatch bb prev s 0 raw = true ↔
      (rawShape raw = true ∧ raw = s.take raw.length ∧
        lookaheadOK (s.drop raw.length) = true) ∧ noBlock bb prev = true := by
  unfold boundaryMatch
  simp only [List.drop_zero, Nat.zero_add, Bool.and_eq_true, beq_iff_eq, prevCharAt]
  constructor
  · rintro ⟨⟨⟨h1, h2⟩, h3⟩, h4⟩
    exact ⟨⟨h1, h2.symm, h4⟩, h3⟩
  · rintro ⟨⟨h1, h2, h3⟩, h4⟩
    exact ⟨⟨⟨h1, h2.symm⟩, h4⟩, h3⟩

theorem boundaryMatch_nil (bb : Char → Bool) (prev : Option Char) (t : Nat)
    (raw : List Char) : boundaryMatch bb prev [] t raw = false := by
  cases raw with
  | nil => simp [boundaryMatch, rawShape]
  | cons c t' =>
    unfold boundaryMatch
    simp [beq_iff_eq]

theorem boundaryMatch_middle {prev : Option Char} {s raw0 rest2 : List Char}
    (hm : matchRaw s = some (raw0, rest2)) {t : Nat} (ht1 : 1 ≤ t)
    (ht2 : t < raw0.length) (raw : List Char) :
    boundaryMatch blockBefore prev s t raw = false := by
  obtain ⟨hshape, hpre, hrest, -⟩ := matchRaw_spec hm
  have hs : raw0 ++ rest2 = s := by
    rw [hpre, hrest]
    exact List.take_append_drop _ s
  obtain ⟨t', rfl⟩ : ∃ t', t = t' + 1 := ⟨t - 1, by omega⟩
  have ht' : t' < raw0.length := by omega
  have hgt : s[t']? = some raw0[t'] := by
    rw [← hs, List.getElem?_append_left ht']
    exact List.getElem?_eq_getElem ht'
  have hb : blockBefore raw0[t'] = true :=
    rawShape_chars hshape _ (List.getElem_mem ht')
  have hnb : noBlock blockBefore (prevCharAt prev s (t' + 1)) = false := by
    show noBlock blockBefore s[t']? = false
    rw [hgt]
    simp [noBlock, hb]
  unfold boundaryMatch
  rw [hnb]
  simp

theorem scanAuxF_mem_iff :
    ∀ (fuel : Nat) (prev : Option Char) (i : Nat) (s : List Char), s.length < fuel →
      ∀ (j : Nat) (raw : List Char),
        ((j, raw) ∈ scanAuxF fuel prev i s ↔
          ∃ t, j = i + t ∧ boundaryMatch blockBefore prev s t raw = true) := by
  intro fuel
  induction fuel with
  | zero =>
    intro prev i s h
    simp at h
  | succ fuel ih =>
    intro prev i s hlen j raw
    cases s with
    | nil =>
      simp only [scanAuxF, List.not_mem_nil, false_iff]
      rintro ⟨t, -, hb⟩
      rw [boundaryMatch_nil] at hb
      cases hb
    | cons c rest =>
      have hrest_len : rest.length < fuel := by
        simp only [List.length_cons] at hlen
        omega
      by_cases hlb : lookbehindOK prev = true
      · simp only [scanAuxF, if_pos hlb]
        cases hm : matchRaw (c :: rest) with
        | none =>
          rw [ih (some c) (i + 1) rest hrest_len j raw]
          constructor
          · rintro ⟨t', rfl, hb⟩
            exact ⟨t' + 1, by omega, by rw [boundaryMatch_cons]; exact hb⟩
          · rintro ⟨t, rfl, hb⟩
            cases t with
            | zero =>
              exfalso
              rw [boundaryMatch_zero_iff] at hb
              obtain ⟨⟨h1, h2, h3⟩, -⟩ := hb
              rw [matchRaw_complete h1 h2 h3] at hm
              cases hm
            | succ t' =>
              rw [boundaryMatch_cons] at hb
              exact ⟨t', by omega, hb⟩
        | some r =>
          obtain ⟨raw0, rest2⟩ := r
          obtain ⟨hshape0, hpre0, hrest0, hla0⟩ := matchRaw_spec hm
          have hs : raw0 ++ rest2 = c :: rest := by
            rw [hpre0, hrest0]
            exact List.take_append_drop _ _
          obtain ⟨c0, raw0', rfl⟩ : ∃ c0 raw0', raw0 = c0 :: raw0' := by
            cases raw0 with
            | nil => exact absurd rfl (rawShape_ne_nil hshape0)
            | cons c0 raw0' => exact ⟨c0, raw0', rfl⟩
          have hr2len : rest2.length < fuel := by
            have := congrArg List.length hs
            simp only [List.length_append, List.length_cons] at this ⊢
            omega
          simp only [List.mem_cons, Prod.mk.injEq]
          rw [ih (c0 :: raw0').getLast? (i + (c0 :: raw0').length) rest2 hr2len j raw]
          constructor
          · rintro (⟨rfl, rfl⟩ | ⟨t', rfl, hb⟩)
            · refine ⟨0, by omega, ?_⟩
              rw [boundaryMatch_zero_iff]
              refine ⟨⟨hshape0, hpre0, ?_⟩, hlb⟩
              rw [← hrest0]
              exact hla0
            · refine ⟨(c0 :: raw0').length + t', by omega, ?_⟩
              rw [← hs, boundaryMatch_append]
              exact hb
          · rintro ⟨t, rfl, hb⟩
            by_cases ht0 : t = 0
            · subst ht0
              rw [boundaryMatch_zero_iff] at hb
              obtain ⟨⟨h1, h2, h3⟩, -⟩ := hb
              rw [matchRaw_complete h1 h2 h3] at hm
              rw [Option.some.injEq, Prod.mk.injEq] at hm
              exact Or.inl ⟨by omega, hm.1⟩
            · by_cases htL : t < (c0 :: raw0').length
              · exfalso
                rw [boundaryMatch_middle hm (by omega) htL raw] at hb
                simp at hb
              · right
                refine ⟨t - (c0 :: raw0').length, by omega, ?_⟩
                rw [← hs, show t = (c0 :: raw0').length + (t - (c0 :: raw0').length) from
                  by omega, boundaryMatch_append] at hb
                exact hb
      · simp only [scanAuxF, if_neg hlb]
        rw [ih (some c) (i + 1) rest hrest_len j raw]
        constructor
        · rintro ⟨t', rfl, hb⟩
          exact ⟨t' + 1, by omega, by rw [boundaryMatch_cons]; exact hb⟩
        · rintro ⟨t, rfl, hb⟩
          cases t with
          | zero =>
            exfalso
            rw [boundaryMatch_zero_iff] at hb
            obtain ⟨-, h4⟩ := hb
            exact hlb h4
          | succ t' =>
            rw [boundaryMatch_cons] at hb
            exact ⟨t', by omega, hb⟩

theorem tickerMatches_iff (text : String) (j : Nat) (raw : List Char) :
    (j, raw) ∈ tickerMatches text ↔
      boundaryMatch blockBefore none (pyUpperChars text.data) j raw = true := by
  unfold tickerMatches
  rw [scanAuxF_mem_iff ((pyUpperChars text.data).length + 1) none 0 _ (by omega) j raw]
  constructor
  · rintro ⟨t, rfl, hb⟩
    simpa using hb
  · intro hb
    exact ⟨j, (Nat.zero_add j).symm, hb⟩

theorem mem_tickerMatches_rawShape {text : String} {j : Nat} {raw : List Char}
    (h : (j, raw) ∈ tickerMatches text) : rawShape raw = true := by
  rw [tickerMatches_iff] at h
  unfold boundaryMatch at h
  simp only [Bool.and_eq_true] at h
  exact h.1.1.1

theorem upperChar_toUpper {c : Char} (h : upperChar c = true) : c.toUpper = c := by
  have h' : ¬(c.toNat ≥ 97 ∧ c.toNat ≤ 122) := by
    simp only [upperChar, Bool.and_eq_true, decide_eq_true_eq] at h
    omega
  unfold Char.toUpper
  simp [h']

theorem map_toUpper_of_all_upper {l : List Char} (h : ∀ x ∈ l, upperChar x = true) :
    l.map Char.toUpper = l := by
  induction l with
  | nil => rfl
  | cons a l ih =>
    simp only [List.map_cons]
    rw [upperChar_toUpper (h a (by simp)), ih (fun x hx => h x (by simp [hx]))]

theorem pyUpperChars_of_rawShape {raw : List Char} (h : rawShape raw = true) :
    pyUpperChars raw = raw := by
  cases raw with
  | nil => rfl
  | cons c t =>
    by_cases hc : c = '$'
    · subst hc
      rw [rawShape_dollar_cons] at h
      obtain ⟨-, -, hall⟩ := rawShape_parts h
      rw [List.all_eq_true] at hall
      simp only [pyUpperChars, List.map_cons]
      rw [show ('$' : Char).toUpper = '$' from by decide,
        map_toUpper_of_all_upper hall]
    · rw [rawShape_cons_of_ne hc] at h
      obtain ⟨-, -, hall⟩ := rawShape_parts h
      rw [List.all_eq_true] at hall
      exact map_toUpper_of_all_upper hall

theorem tickerChecks_not_stopword {r : List Char} {sw : List String}
    (h : tickerChecks r sw = true) : String.mk r ∉ sw := by
  intro hmem
  unfold tickerChecks at h
  by_cases h1 : r.length = 1
  · rw [if_pos h1] at h
    cases h
  · rw [if_neg h1] at h
    rw [if_pos (by simpa [List.contains] using hmem)] at h
    cases h

theorem mem_extract_tickers {text : String} {stopwords : List String} {t : String}
    (h : t ∈ extract_tickers text stopwords) :
    ∃ raw, rawShape raw = true ∧ is_candidate_ticker raw stopwords = true ∧
      t = String.mk (stripDollar raw) := by
  unfold extract_tickers at h
  by_cases htext : text = ""
  · rw [if_pos htext] at h
    cases h
  · rw [if_neg htext] at h
    rw [List.mem_filterMap] at h
    obtain ⟨m, hm, hcond⟩ := h
    obtain ⟨j, raw⟩ := m
    by_cases hc : is_candidate_ticker raw stopwords = true
    · rw [if_pos hc] at hcond
      injection hcond with hcond
      exact ⟨raw, mem_tickerMatches_rawShape hm, hc, hcond.symm⟩
    · rw [if_neg hc] at hcond
      cases hcond

theorem extract_no_long_stopword {text : String} {stopwords : List String} {t : String}
    (hmem : t ∈ extract_tickers text stopwords) (hlen : 2 ≤ t.length) :
    t ∉ stopwords := by
  obtain ⟨raw, hshape, hc, rfl⟩ := mem_extract_tickers hmem
  simp only [is_candidate_ticker, pyUpperChars_of_rawShape hshape] at hc
  unfold stripDollar at hlen ⊢
  by_cases hd : raw.head? = some '$'
  · rw [if_pos hd] at hc hlen ⊢
    have hlen' : ¬raw.tail.length = 1 := by
      intro h1
      simp only [String.length, String.mk] at hlen
      omega
    rw [if_neg hlen'] at hc
    exact tickerChecks_not_stopword hc
  · rw [if_neg hd] at hc hlen ⊢
    exact tickerChecks_not_stopword hc

theorem candidacy_agrees (raw : List Char) (sw : List String) (h : rawShape raw = true) :
    (if is_candidate_ticker raw sw then some (String.mk (stripDollar raw)) else none) =
      candidacySpecRules raw sw := by
  simp only [is_candidate_ticker, pyUpperChars_of_rawShape h, candidacySpecRules,
    stripDollar, tickerChecks, List.contains, List.elem_eq_mem, decide_eq_true_eq]
  by_cases hd : raw.head? = some '$'
  · simp only [if_pos hd, hd, true_and, ite_true]
    by_cases h1 : raw.tail.length = 1
    · simp [h1]
    · simp only [if_neg h1, ite_false]
      by_cases hsw : String.mk raw.tail ∈ sw
      · simp [h1, hsw]
      · by_cases hrj : String.mk raw.tail ∈ (["AAAA", "BBBB", "CCCC"] : List String)
        · simp [h1, hsw, hrj]
        · simp [h1, hsw, hrj]
  · simp only [if_neg hd, hd, false_and, ite_false]
    by_cases h1 : raw.length = 1
    · simp [h1]
    · by_cases hsw : String.mk raw ∈ sw
      · simp [h1, hsw]
      · by_cases hrj : String.mk raw ∈ (["AAAA", "BBBB", "CCCC"] : List String)
        · simp [h1, hsw, hrj]
        · simp [h1, hsw, hrj]

theorem pyTruthy_float_default : pyTruthy (.float (0.35 : ℚ)) = true := by
  simp only [pyTruthy, ne_eq, decide_not]
  norm_num

theorem dget_dset_self {β : Type} (m : List (String × β)) (k : String) (v : β) :
    dget (dset m k v) k = some v := by
  induction m with
  | nil => simp [dset, dget]
  | cons p m ih =>
    obtain ⟨k', v'⟩ := p
    by_cases h : k' = k
    · subst h
      simp [dset, dget]
    · simp [dset, dget, h, ih]

theorem dget_dset_ne {β : Type} (m : List (String × β)) {k k' : String} (v : β)
    (h : k' ≠ k) : dget (dset m k v) k' = dget m k' := by
  induction m with
  | nil => simp [dset, dget, Ne.symm h]
  | cons p m ih =>
    obtain ⟨k0, v0⟩ := p
    by_cases h0 : k0 = k
    · subst h0
      simp [dset, dget, Ne.symm h]
    · simp [dset, dget, h0, ih]

theorem dget_isSome_of_mem {β : Type} {m : List (String × β)} {k : String} {v : β}
    (h : (k, v) ∈ m) : (dget m k).isSome := by
  induction m with
  | nil => cases h
  | cons p m ih =>
    obtain ⟨k0, v0⟩ := p
    rw [List.mem_cons] at h
    by_cases h0 : k0 = k
    · simp [dget, h0]
    · rcases h with h | h
      · rw [Prod.mk.injEq] at h
        exact absurd h.1.symm h0
      · simp [dget, h0, ih h]

theorem dget_eq_of_mem_nodup {β : Type} {m : List (String × β)} {k : String} {v : β}
    (hnd : (m.map Prod.fst).Nodup) (h : (k, v) ∈ m) : dget m k = some v := by
  induction m with
  | nil => cases h
  | cons p m ih =>
    obtain ⟨k0, v0⟩ := p
    simp only [List.map_cons, List.nodup_cons] at hnd
    rw [List.mem_cons] at h
    rcases h with h | h
    · rw [Prod.mk.injEq] at h
      obtain ⟨h1, h2⟩ := h
      subst h1
      subst h2
      simp [dget]
    · have hk : k0 ≠ k := by
        intro he
        subst he
        exact hnd.1 (List.mem_map_of_mem Prod.fst h)
      simp [dget, hk, ih hnd.2 h]

theorem mem_dedupFirstAux {l : List String} :
    ∀ {seen x}, x ∈ dedupFirstAux seen l ↔ x ∈ l ∧ x ∉ seen := by
  induction l with
  | nil => intro seen x; simp [dedupFirstAux]
  | cons a l ih =>
    intro seen x
    by_cases ha : a ∈ seen
    · rw [show dedupFirstAux seen (a :: l) = dedupFirstAux seen l from by
        simp [dedupFirstAux, ha]]
      rw [ih]
      constructor
      · rintro ⟨h1, h2⟩
        exact ⟨List.mem_cons_of_mem a h1, h2⟩
      · rintro ⟨h1, h2⟩
        rcases List.mem_cons.mp h1 with rfl | h1
        · exact absurd ha h2
        · exact ⟨h1, h2⟩
    · rw [show dedupFirstAux seen (a :: l) = a :: dedupFirstAux (a :: seen) l from by
        simp [dedupFirstAux, ha]]
      rw [List.mem_cons, ih]
      constructor
      · rintro (rfl | ⟨h1, h2⟩)
        · exact ⟨List.mem_cons_self _ _, ha⟩
        · refine ⟨List.mem_cons_of_mem a h1, fun hc => h2 (List.mem_cons_of_mem a hc)⟩
      · rintro ⟨h1, h2⟩
        rcases List.mem_cons.mp h1 with rfl | h1
        · exact Or.inl rfl
        · by_cases hx : x = a
          · exact Or.inl hx
          · exact Or.inr ⟨h1, fun hc => by
              rcases List.mem_cons.mp hc with h | h
              · exact hx h
              · exact h2 h⟩

theorem mem_dedupFirst {l : List String} {x : String} :
    x ∈ dedupFirst l ↔ x ∈ l := by
  rw [dedupFirst, mem_dedupFirstAux]
  simp

theorem nodup_dedupFirstAux {l : List String} :
    ∀ {seen}, (dedupFirstAux seen l).Nodup := by
  induction l with
  | nil => intro seen; simp [dedupFirstAux]
  | cons a l ih =>
    intro seen
    by_cases ha : a ∈ seen
    · rw [show dedupFirstAux seen (a :: l) = dedupFirstAux seen l from by
        simp [dedupFirstAux, ha]]
      exact ih
    · rw [show dedupFirstAux seen (a :: l) = a :: dedupFirstAux (a :: seen) l from by
        simp [dedupFirstAux, ha]]
      rw [List.nodup_cons]
      refine ⟨fun hc => ?_, ih⟩
      rw [mem_dedupFirstAux] at hc
      exact hc.2 (List.mem_cons_self _ _)

theorem nodup_dedupFirst (l : List String) : (dedupFirst l).Nodup :=
  nodup_dedupFirstAux

theorem foldl_bestStep_some {α : Type} [LinearOrder α] :
    ∀ (l : List (α × String)) (b), l.foldl bestStep (some b) = some (bestPair b l) := by
  intro l
  induction l with
  | nil => intro b; rfl
  | cons x l ih =>
    intro b
    show l.foldl bestStep (bestStep (some b) x) = _
    by_cases h : b.1 < x.1
    · rw [show bestStep (some b) x = some x from by simp [bestStep, h],
        show bestPair b (x :: l) = bestPair x l from by simp [bestPair, h]]
      exact ih x
    · rw [show bestStep (some b) x = some b from by simp [bestStep, h],
        show bestPair b (x :: l) = bestPair b l from by simp [bestPair, h]]
      exact ih b

theorem find?_congr_mem {γ : Type} {p q : γ → Bool} :
    ∀ {l : List γ}, (∀ x ∈ l, p x = q x) → l.find? p = l.find? q := by
  intro l
  induction l with
  | nil => intro _; rfl
  | cons a l ih =>
    intro h
    by_cases hp : p a = true
    · rw [List.find?_cons_of_pos l hp, List.find?_cons_of_pos l (by rw [← h a (by simp)]; exact hp)]
    · rw [List.find?_cons_of_neg l hp,
        List.find?_cons_of_neg l (by rw [← h a (by simp)]; exact hp),
        ih (fun x hx => h x (by simp [hx]))]

theorem bestPair_eq_firstMax {α : Type} [LinearOrder α] :
    ∀ (l : List (α × String)) (b : α × String), some (bestPair b l) = firstMax (b :: l) := by
  intro l
  induction l with
  | nil =>
    intro b
    simp [bestPair, firstMax]
  | cons x l ih =>
    intro b
    by_cases hbx : b.1 < x.1
    · rw [show bestPair b (x :: l) = bestPair x l from by simp [bestPair, hbx], ih x]
      unfold firstMax
      symm
      rw [List.find?_cons_of_neg _ (by
        simp only [List.all_cons, List.all_eq_true, Bool.and_eq_true, decide_eq_true_eq]
        rintro ⟨-, hxb', -⟩
        exact absurd hxb' (not_le.mpr hbx))]
      apply find?_congr_mem
      intro p hp
      simp only [List.all_cons]
      cases hx : decide (x.1 ≤ p.1) with
      | false => simp
      | true =>
        have hbp : b.1 ≤ p.1 := le_trans (le_of_lt hbx) (of_decide_eq_true hx)
        simp [hbp]
    · have hxb : x.1 ≤ b.1 := le_of_not_lt hbx
      rw [show bestPair b (x :: l) = bestPair b l from by simp [bestPair, hbx], ih b]
      unfold firstMax
      by_cases hpb : ((b :: l).all fun q => decide (q.1 ≤ b.1)) = true
      · have hpb' : ((b :: x :: l).all fun q => decide (q.1 ≤ b.1)) = true := by
          simp only [List.all_cons, List.all_eq_true, Bool.and_eq_true,
            decide_eq_true_eq] at hpb ⊢
          exact ⟨hpb.1, hxb, hpb.2⟩
        rw [List.find?_cons_of_pos
            (p := fun y : α × String => (b :: l).all fun q => decide (q.1 ≤ y.1)) _ hpb,
          List.find?_cons_of_pos
            (p := fun y : α × String => (b :: x :: l).all fun q => decide (q.1 ≤ y.1)) _ hpb']
      · have hpb' : ¬∀ q ∈ l, q.1 ≤ b.1 := by
          intro hc
          exact hpb (by
            simp only [List.all_cons, List.all_eq_true, Bool.and_eq_true,
              decide_eq_true_eq]
            exact ⟨le_refl _, fun q hq => hc q hq⟩)
        have hpbx : ¬((b :: x :: l).all fun q => decide (q.1 ≤ x.1)) = true := by
          simp only [List.all_cons, List.all_eq_true, Bool.and_eq_true, decide_eq_true_eq]
          rintro ⟨-, -, hlx⟩
          exact hpb' (fun q hq => le_trans (hlx q hq) hxb)
        have hpbneg : ¬((b :: x :: l).all fun q => decide (q.1 ≤ b.1)) = true := by
          simp only [List.all_cons, List.all_eq_true, Bool.and_eq_true, decide_eq_true_eq]
          rintro ⟨-, -, hlb⟩
          exact hpb' hlb
      
        symm
        rw [List.find?_cons_of_neg
            (p := fun y : α × String => (b :: x :: l).all fun q => decide (q.1 ≤ y.1)) _ hpbneg,
          List.find?_cons_of_neg
            (p := fun y : α × String => (b :: x :: l).all fun q => decide (q.1 ≤ y.1)) _ hpbx,
          List.find?_cons_of_neg
            (p := fun y : α × String => (b :: l).all fun q => decide (q.1 ≤ y.1)) _ hpb]
        apply find?_congr_mem
        intro p hp
        simp only [List.all_cons]
        by_cases hbp : b.1 ≤ p.1
        · have hxp : x.1 ≤ p.1 := le_trans hxb hbp
          simp [hbp, hxp]
        · simp [hbp]

theorem bestFold_eq_firstMax {α : Type} [LinearOrder α] (l : List (α × String)) :
    bestFold l = firstMax l := by
  cases l with
  | nil => rfl
  | cons x l =>
    rw [show bestFold (x :: l) = l.foldl bestStep (some x) from rfl,
      foldl_bestStep_some, bestPair_eq_firstMax]

theorem sbTickerUpd_authors_self (a : String) (sc : Int) (link : String)
    (st : SBState) (t : String) :
    dget (sbTickerUpd a sc link st t).ticker_authors t =
      some (pyAdd ((dget st.ticker_authors t).getD []) a) :=
  dget_dset_self _ _ _

theorem sbTickerUpd_authors_ne (a : String) (sc : Int) (link : String)
    (st : SBState) {t t' : String} (h : t' ≠ t) :
    dget (sbTickerUpd a sc link st t).ticker_authors t' = dget st.ticker_authors t' :=
  dget_dset_ne _ _ h

theorem sbTickerUpd_best_self (a : String) (sc : Int) (link : String)
    (st : SBState) (t : String) :
    dget (sbTickerUpd a sc link st t).ticker_best_comment t =
      bestStep (dget st.ticker_best_comment t) (sc, link) := by
  unfold sbTickerUpd bestStep
  cases hp : dget st.ticker_best_comment t with
  | none => exact dget_dset_self _ _ _
  | some p =>
    show dget (if p.1 < sc then dset st.ticker_best_comment t (sc, link)
        else st.ticker_best_comment) t =
      (if p.1 < sc then some (sc, link) else some p)
    by_cases hlt : p.1 < sc
    · rw [if_pos hlt, if_pos hlt]
      exact dget_dset_self _ _ _
    · rw [if_neg hlt, if_neg hlt]
      exact hp

theorem sbTickerUpd_best_ne (a : String) (sc : Int) (link : String)
    (st : SBState) {t t' : String} (h : t' ≠ t) :
    dget (sbTickerUpd a sc link st t).ticker_best_comment t' =
      dget st.ticker_best_comment t' := by
  unfold sbTickerUpd
  cases hp : dget st.ticker_best_comment t with
  | none => exact dget_dset_ne _ _ h
  | some p =>
    show dget (if p.1 < sc then dset st.ticker_best_comment t (sc, link)
        else st.ticker_best_comment) t' = dget st.ticker_best_comment t'
    by_cases hlt : p.1 < sc
    · rw [if_pos hlt]
      exact dget_dset_ne _ _ h
    · rw [if_neg hlt]

theorem fold_sbTickerUpd_authors (a : String) (sc : Int) (link : String) :
    ∀ (ts : List String) (st : SBState) (t : String), ts.Nodup →
      dget ((ts.foldl (sbTickerUpd a sc link) st).ticker_authors) t =
        (if t ∈ ts then some (pyAdd ((dget st.ticker_authors t).getD []) a)
         else dget st.ticker_authors t) := by
  intro ts
  induction ts with
  | nil =>
    intro st t _
    simp
  | cons u ts ih =>
    intro st t hnd
    rw [List.nodup_cons] at hnd
    show dget ((ts.foldl _ (sbTickerUpd a sc link st u)).ticker_authors) t = _
    rw [ih _ t hnd.2]
    by_cases htu : t = u
    · subst htu
      rw [if_neg (fun hc => hnd.1 hc), if_pos (List.mem_cons_self _ _)]
      exact sbTickerUpd_authors_self a sc link st t
    · rw [sbTickerUpd_authors_ne a sc link st htu]
      simp [List.mem_cons, htu]

theorem fold_sbTickerUpd_best (a : String) (sc : Int) (link : String) :
    ∀ (ts : List String) (st : SBState) (t : String), ts.Nodup →
      dget ((ts.foldl (sbTickerUpd a sc link) st).ticker_best_comment) t =
        (if t ∈ ts then bestStep (dget st.ticker_best_comment t) (sc, link)
         else dget st.ticker_best_comment t) := by
  intro ts
  induction ts with
  | nil =>
    intro st t _
    simp
  | cons u ts ih =>
    intro st t hnd
    rw [List.nodup_cons] at hnd
    show dget ((ts.foldl _ (sbTickerUpd a sc link st u)).ticker_best_comment) t = _
    rw [ih _ t hnd.2]
    by_cases htu : t = u
    · subst htu
      rw [if_neg (fun hc => hnd.1 hc), if_pos (List.mem_cons_self _ _)]
      exact sbTickerUpd_best_self a sc link st t
    · rw [sbTickerUpd_best_ne a sc link st htu]
      simp [List.mem_cons, htu]

theorem processComment_best (stopwords : List String) (st : SBState)
    (c : CommentRec) (t : String) :
    dget (processComment stopwords st c).ticker_best_comment t =
      (if c.hasBody then
        match c.author with
        | some _ =>
          if t ∈ dedupFirst (extract_tickers c.body stopwords) then
            bestStep (dget st.ticker_best_comment t) (c.score.getD 0, commentLink c)
          else dget st.ticker_best_comment t
        | none => dget st.ticker_best_comment t
      else dget st.ticker_best_comment t) := by
  unfold processComment
  cases hb : c.hasBody with
  | false => simp
  | true =>
    simp only [Bool.not_true, Bool.false_eq_true, if_false, ite_true]
    cases hauth : c.author with
    | none => rfl
    | some a =>
      dsimp only
      by_cases hts : (dedupFirst (extract_tickers c.body stopwords)).isEmpty
      · have hnil : dedupFirst (extract_tickers c.body stopwords) = [] :=
          List.isEmpty_iff.mp hts
        rw [if_pos hts, hnil]
        simp
      · rw [if_neg hts,
          fold_sbTickerUpd_best _ _ _ _ _ _ (nodup_dedupFirst _)]

theorem sb_best_obs (stopwords : List String) :
    ∀ (comments : List CommentRec) (st : SBState) (t : String),
      dget ((comments.foldl (processComment stopwords) st).ticker_best_comment) t =
        (sbObs comments stopwords t).foldl bestStep (dget st.ticker_best_comment t) := by
  intro comments
  induction comments with
  | nil =>
    intro st t
    rfl
  | cons c cs ih =>
    intro st t
    show dget ((cs.foldl _ (processComment stopwords st c)).ticker_best_comment) t = _
    rw [ih]
    have hobs : sbObs (c :: cs) stopwords t =
        (match
          (if c.hasBody then
            match c.author with
            | some _ =>
              if t ∈ dedupFirst (extract_tickers c.body stopwords) then
                some (c.score.getD 0, commentLink c)
              else none
            | none => none
          else none) with
        | some o => o :: sbObs cs stopwords t
        | none => sbObs cs stopwords t) := by
      unfold sbObs
      rw [List.filterMap_cons]
      cases hv :
        (if c.hasBody then
          match c.author with
          | some _ =>
            if t ∈ dedupFirst (extract_tickers c.body stopwords) then
              some (c.score.getD 0, commentLink c)
            else none
          | none => none
        else none) with
      | none => rfl
      | some o => rfl
    rw [hobs, processComment_best]
    cases hb : c.hasBody with
    | false => simp
    | true =>
      simp only [ite_true]
      cases hauth : c.author with
      | none => simp
      | some a =>
        by_cases htm : t ∈ dedupFirst (extract_tickers c.body stopwords)
        · rw [if_pos htm, if_pos htm]
          rfl
        · rw [if_neg htm, if_neg htm]

theorem sbState_best_eq_bestFold (comments : List CommentRec)
    (stopwords : List String) (t : String) :
    dget ((comments.foldl (processComment stopwords)
        (⟨[], []⟩ : SBState)).ticker_best_comment) t =
      bestFold (sbObs comments stopwords t) := by
  rw [sb_best_obs]
  rfl

theorem mem_insStable {γ : Type} (le : γ → γ → Bool) (a c : γ) :
    ∀ l, (c ∈ insStable le a l ↔ c = a ∨ c ∈ l) := by
  intro l
  induction l with
  | nil => simp [insStable]
  | cons b l ih =>
    by_cases hba : le b a = true
    · rw [show insStable le a (b :: l) = b :: insStable le a l from by
        simp [insStable, hba]]
      rw [List.mem_cons, ih, List.mem_cons]
      tauto
    · rw [show insStable le a (b :: l) = a :: b :: l from by simp [insStable, hba]]
      rw [List.mem_cons]

theorem insStable_perm {γ : Type} (le : γ → γ → Bool) (a : γ) :
    ∀ l, (insStable le a l).Perm (a :: l) := by
  intro l
  induction l with
  | nil => exact List.Perm.refl _
  | cons b l ih =>
    by_cases hba : le b a = true
    · rw [show insStable le a (b :: l) = b :: insStable le a l from by
        simp [insStable, hba]]
      exact (ih.cons b).trans (List.Perm.swap a b l)
    · rw [show insStable le a (b :: l) = a :: b :: l from by simp [insStable, hba]]

theorem pySortedRev_perm {γ : Type} (le : γ → γ → Bool) (l : List γ) :
    (pySortedRev le l).Perm l := by
  have haux : ∀ (l acc : List γ),
      (l.foldl (fun acc a => insStable le a acc) acc).Perm (acc ++ l) := by
    intro l
    induction l with
    | nil => intro acc; simp
    | cons a l ih =>
      intro acc
      show ((l.foldl _ (insStable le a acc)).Perm _)
      refine (ih (insStable le a acc)).trans ?_
      refine (((insStable_perm le a acc).append_right l).trans ?_)
      exact List.perm_middle.symm
  have := haux l []
  simpa using this

theorem pairwise_insStable {γ : Type} {le : γ → γ → Bool}
    (htot : ∀ a b, le a b = true ∨ le b a = true)
    (htrans : ∀ a b c, le a b = true → le b c = true → le a c = true)
    (a : γ) : ∀ {l}, l.Pairwise (fun x y => le x y = true) →
      (insStable le a l).Pairwise (fun x y => le x y = true) := by
  intro l
  induction l with
  | nil =>
    intro _
    simp [insStable]
  | cons b l ih =>
    intro hl
    rw [List.pairwise_cons] at hl
    by_cases hba : le b a = true
    · rw [show insStable le a (b :: l) = b :: insStable le a l from by
        simp [insStable, hba]]
      rw [List.pairwise_cons]
      refine ⟨fun c hc => ?_, ih hl.2⟩
      rcases (mem_insStable le a c l).mp hc with rfl | hc
      · exact hba
      · exact hl.1 c hc
    · rw [show insStable le a (b :: l) = a :: b :: l from by simp [insStable, hba]]
      rw [List.pairwise_cons]
      have hab : le a b = true := (htot a b).resolve_right (fun hc => hba hc)
      refine ⟨fun c hc => ?_, List.pairwise_cons.mpr hl⟩
      rcases List.mem_cons.mp hc with rfl | hc
      · exact hab
      · exact htrans a b c hab (hl.1 c hc)

theorem pairwise_pySortedRev {γ : Type} {le : γ → γ → Bool}
    (htot : ∀ a b, le a b = true ∨ le b a = true)
    (htrans : ∀ a b c, le a b = true → le b c = true → le a c = true)
    (l : List γ) : (pySortedRev le l).Pairwise (fun x y => le x y = true) := by
  have haux : ∀ (l acc : List γ), acc.Pairwise (fun x y => le x y = true) →
      (l.foldl (fun acc a => insStable le a acc) acc).Pairwise
        (fun x y => le x y = true) := by
    intro l
    induction l with
    | nil => intro acc h; exact h
    | cons a l ih =>
      intro acc h
      exact ih _ (pairwise_insStable htot htrans a h)
  exact haux l [] (by simp)

theorem charToNat_inj {c d : Char} (h : c.toNat = d.toNat) : c = d :=
  Char.eq_of_val_eq (UInt32.eq_of_val_eq (Fin.ext h))

theorem charListLt_trans :
    ∀ a b c, charListLt a b = true → charListLt b c = true → charListLt a c = true := by
  intro a
  induction a with
  | nil =>
    intro b c hab hbc
    cases b with
    | nil => cases hab
    | cons y ys =>
      cases c with
      | nil => cases hbc
      | cons z zs => rfl
  | cons x xs ih =>
    intro b c hab hbc
    cases b with
    | nil => cases hab
    | cons y ys =>
      cases c with
      | nil => cases hbc
      | cons z zs =>
        simp only [charListLt, Bool.or_eq_true, Bool.and_eq_true,
          decide_eq_true_eq] at hab hbc ⊢
        rcases hab with hab | ⟨hab1, hab2⟩
        · rcases hbc with hbc | ⟨hbc1, hbc2⟩
          · exact Or.inl (lt_trans hab hbc)
          · exact Or.inl (by omega)
        · rcases hbc with hbc | ⟨hbc1, hbc2⟩
          · exact Or.inl (by omega)
          · exact Or.inr ⟨by omega, ih ys zs hab2 hbc2⟩

theorem charListLt_eq_of_not :
    ∀ a b, charListLt a b = false → charListLt b a = false → a = b := by
  intro a
  induction a with
  | nil =>
    intro b hab _
    cases b with
    | nil => rfl
    | cons y ys => simp [charListLt] at hab
  | cons x xs ih =>
    intro b hab hba
    cases b with
    | nil => simp [charListLt] at hba
    | cons y ys =>
      simp only [charListLt, Bool.or_eq_false_iff, Bool.and_eq_false_iff,
        decide_eq_false_iff_not] at hab hba
      obtain ⟨hab1, hab2⟩ := hab
      obtain ⟨hba1, hba2⟩ := hba
      have hxy : x.toNat = y.toNat := by omega
      have hx : x = y := charToNat_inj hxy
      subst hx
      rcases hab2 with h | h
      · exact absurd rfl h
      · rcases hba2 with h' | h'
        · exact absurd rfl h'
        · rw [ih ys h h']

theorem charListLt_irrefl : ∀ a, charListLt a a = false := by
  intro a
  induction a with
  | nil => rfl
  | cons x xs ih => simp [charListLt, ih]

theorem keyLt_irrefl {α : Type} [LinearOrder α] (x : α × String) :
    keyLt x x = false := by
  unfold keyLt pyStrLt
  simp [charListLt_irrefl]

theorem keyLt_trans {α : Type} [LinearOrder α] :
    ∀ x y z : α × String, keyLt x y = true → keyLt y z = true → keyLt x z = true := by
  intro x y z hxy hyz
  unfold keyLt pyStrLt at hxy hyz ⊢
  simp only [Bool.or_eq_true, Bool.and_eq_true, decide_eq_true_eq] at hxy hyz ⊢
  rcases hxy with h | ⟨h1, h2⟩ <;> rcases hyz with g | ⟨g1, g2⟩
  · exact Or.inl (lt_trans h g)
  · exact Or.inl (g1 ▸ h)
  · exact Or.inl (h1 ▸ g)
  · exact Or.inr ⟨h1.trans g1, charListLt_trans _ _ _ h2 g2⟩

theorem keyLt_cases {α : Type} [LinearOrder α] (x y : α × String) :
    keyLt x y = true ∨ x = y ∨ keyLt y x = true := by
  obtain ⟨xa, xs⟩ := x
  obtain ⟨ya, ys⟩ := y
  obtain ⟨xd⟩ := xs
  obtain ⟨yd⟩ := ys
  unfold keyLt pyStrLt
  dsimp only
  rcases lt_trichotomy xa ya with h | h | h
  · exact Or.inl (by simp [h])
  · subst h
    by_cases hs : charListLt xd yd = true
    · exact Or.inl (by simp [hs])
    · by_cases hs' : charListLt yd xd = true
      · exact Or.inr (Or.inr (by simp [hs']))
      · have hd : xd = yd :=
          charListLt_eq_of_not _ _ (Bool.eq_false_iff.mpr hs) (Bool.eq_false_iff.mpr hs')
        subst hd
        exact Or.inr (Or.inl rfl)
  · exact Or.inr (Or.inr (by simp [h]))

theorem keyLt_of_not_of_ne {α : Type} [LinearOrder α] {x y : α × String}
    (h : keyLt x y = false) (hne : x ≠ y) : keyLt y x = true := by
  rcases keyLt_cases x y with hc | hc | hc
  · rw [hc] at h
    cases h
  · exact absurd hc hne
  · exact hc

theorem notKeyLt_total {α γ : Type} [LinearOrder α] (k : γ → α × String) :
    ∀ a b : γ, (!keyLt (k a) (k b)) = true ∨ (!keyLt (k b) (k a)) = true := by
  intro a b
  by_cases h : keyLt (k a) (k b) = true
  · right
    rw [Bool.not_eq_true']
    cases hv : keyLt (k b) (k a) with
    | false => rfl
    | true =>
      have := keyLt_trans _ _ _ h hv
      rw [keyLt_irrefl] at this
      cases this
  · left
    rw [Bool.not_eq_true']
    exact Bool.eq_false_iff.mpr h

theorem notKeyLt_trans {α γ : Type} [LinearOrder α] (k : γ → α × String) :
    ∀ a b c : γ, (!keyLt (k a) (k b)) = true → (!keyLt (k b) (k c)) = true →
      (!keyLt (k a) (k c)) = true := by
  intro a b c hab hbc
  rw [Bool.not_eq_true'] at hab hbc ⊢
  cases hac : keyLt (k a) (k c) with
  | false => rfl
  | true =>
    rcases keyLt_cases (k a) (k b) with h | h | h
    · rw [h] at hab
      cases hab
    · rw [← h, hac] at hbc
      cases hbc
    · have := keyLt_trans _ _ _ h hac
      rw [this] at hbc
      cases hbc

theorem mem_keys_dset {β : Type} {m : List (String × β)} {k k' : String} {v : β}
    (h : k' ∈ (dset m k v).map Prod.fst) : k' = k ∨ k' ∈ m.map Prod.fst := by
  induction m with
  | nil => simpa [dset] using h
  | cons p m ih =>
    obtain ⟨k0, v0⟩ := p
    by_cases h0 : k0 = k
    · subst h0
      simp only [dset, eq_self_iff_true, if_true, List.map_cons, List.mem_cons] at h ⊢
      tauto
    · simp only [dset, if_neg h0, List.map_cons, List.mem_cons] at h ⊢
      rcases h with h | h
      · tauto
      · rcases ih h with h | h <;> tauto

theorem nodup_keys_dset {β : Type} {m : List (String × β)} (k : String) (v : β)
    (h : (m.map Prod.fst).Nodup) : ((dset m k v).map Prod.fst).Nodup := by
  induction m with
  | nil => simp [dset]
  | cons p m ih =>
    obtain ⟨k0, v0⟩ := p
    simp only [List.map_cons, List.nodup_cons] at h
    by_cases h0 : k0 = k
    · subst h0
      simp only [dset, eq_self_iff_true, if_true, List.map_cons, List.nodup_cons]
      exact ⟨h.1, h.2⟩
    · simp only [dset, if_neg h0, List.map_cons, List.nodup_cons]
      refine ⟨fun hc => ?_, ih h.2⟩
      rcases mem_keys_dset hc with rfl | hc2
      · exact h0 rfl
      · exact h.1 hc2

theorem nodup_keys_fold_sbTickerUpd (a : String) (sc : Int) (link : String) :
    ∀ (ts : List String) (st : SBState),
      (st.ticker_authors.map Prod.fst).Nodup →
      (((ts.foldl (sbTickerUpd a sc link) st).ticker_authors).map Prod.fst).Nodup := by
  intro ts
  induction ts with
  | nil => intro st h; exact h
  | cons u ts ih =>
    intro st h
    exact ih _ (nodup_keys_dset _ _ h)

theorem nodup_keys_processComment (stopwords : List String) (st : SBState)
    (c : CommentRec) (h : (st.ticker_authors.map Prod.fst).Nodup) :
    ((processComment stopwords st c).ticker_authors.map Prod.fst).Nodup := by
  unfold processComment
  cases hb : c.hasBody with
  | false => simpa using h
  | true =>
    simp only [Bool.not_true, Bool.false_eq_true, if_false, ite_true]
    cases c.author with
    | none => exact h
    | some a =>
      dsimp only
      by_cases hts : (dedupFirst (extract_tickers c.body stopwords)).isEmpty
      · rw [if_pos hts]
        exact h
      · rw [if_neg hts]
        exact nodup_keys_fold_sbTickerUpd _ _ _ _ _ h

theorem nodup_keys_sbState (comments : List CommentRec) (stopwords : List String) :
    ∀ st : SBState, (st.ticker_authors.map Prod.fst).Nodup →
      (((comments.foldl (processComment stopwords) st).ticker_authors).map Prod.fst).Nodup := by
  induction comments with
  | nil => intro st h; exact h
  | cons c cs ih =>
    intro st h
    exact ih _ (nodup_keys_processComment stopwords st c h)

theorem build_scoreboard_pairwise (comments : List CommentRec)
    (stopwords : List String) (max_tickers : Nat) :
    (build_scoreboard comments stopwords max_tickers).Pairwise fun x y =>
      keyLt (y.unique_authors, y.ticker) (x.unique_authors, x.ticker) = true := by
  unfold build_scoreboard
  rw [List.pairwise_map]
  have hsorted :=
    @pairwise_pySortedRev (String × List String) sbLe (notKeyLt_total sbKey)
      (notKeyLt_trans sbKey)
      ((comments.foldl (processComment stopwords) ⟨[], []⟩).ticker_authors)
  have hperm :=
    pySortedRev_perm sbLe
      ((comments.foldl (processComment stopwords) ⟨[], []⟩).ticker_authors)
  have hkeys :
      ((pySortedRev sbLe
        ((comments.foldl (processComment stopwords) ⟨[], []⟩).ticker_authors)).map
          Prod.fst).Nodup :=
    ((hperm.map Prod.fst).nodup_iff).mpr
      (nodup_keys_sbState comments stopwords ⟨[], []⟩ (by simp))
  have hne :
      (pySortedRev sbLe
        ((comments.foldl (processComment stopwords) ⟨[], []⟩).ticker_authors)).Pairwise
        fun a b => a.1 ≠ b.1 := by
    have h2 := hkeys
    unfold List.Nodup at h2
    rw [List.pairwise_map] at h2
    exact h2
  have hstrict := (hsorted.and hne).imp fun {a b} h => by
    have h1 := h.1
    unfold sbLe at h1
    rw [Bool.not_eq_true'] at h1
    have h2 : sbKey a ≠ sbKey b := fun hk => h.2 (congrArg Prod.snd hk)
    exact keyLt_of_not_of_ne h1 h2
  exact List.Pairwise.sublist (List.take_sublist _ _) hstrict

theorem processComment_authors (stopwords : List String) (st : SBState)
    (c : CommentRec) (t : String) :
    dget (processComment stopwords st c).ticker_authors t =
      (if c.hasBody then
        match c.author with
        | some a =>
          if t ∈ dedupFirst (extract_tickers c.body stopwords) then
            some (pyAdd ((dget st.ticker_authors t).getD []) (pyLower a))
          else dget st.ticker_authors t
        | none => dget st.ticker_authors t
      else dget st.ticker_authors t) := by
  unfold processComment
  cases hb : c.hasBody with
  | false => simp
  | true =>
    simp only [Bool.not_true, Bool.false_eq_true, if_false, ite_true]
    cases hauth : c.author with
    | none => rfl
    | some a =>
      dsimp only
      by_cases hts : (dedupFirst (extract_tickers c.body stopwords)).isEmpty
      · have hnil : dedupFirst (extract_tickers c.body stopwords) = [] :=
          List.isEmpty_iff.mp hts
        rw [if_pos hts, hnil]
        simp
      · rw [if_neg hts,
          fold_sbTickerUpd_authors _ _ _ _ _ _ (nodup_dedupFirst _)]

theorem bestStep_isSome {α : Type} [LinearOrder α] (prev : Option (α × String))
    (obs : α × String) : (bestStep prev obs).isSome := by
  cases prev with
  | none => rfl
  | some p =>
    show (if p.1 < obs.1 then some obs else some p).isSome = true
    by_cases h : p.1 < obs.1
    · rw [if_pos h]
      rfl
    · rw [if_neg h]
      rfl

theorem sb_coupled (stopwords : List String) :
    ∀ (comments : List CommentRec) (st : SBState),
      (∀ u, (dget st.ticker_authors u).isSome → (dget st.ticker_best_comment u).isSome) →
      ∀ t,
        (dget ((comments.foldl (processComment stopwords) st).ticker_authors) t).isSome →
        (dget ((comments.foldl (processComment stopwords) st).ticker_best_comment) t).isSome := by
  intro comments
  induction comments with
  | nil =>
    intro st h t
    exact h t
  | cons c cs ih =>
    intro st h t
    show
      (dget ((cs.foldl (processComment stopwords) (processComment stopwords st c)).ticker_authors) t).isSome →
      (dget ((cs.foldl (processComment stopwords) (processComment stopwords st c)).ticker_best_comment) t).isSome
    apply ih
    intro u
    rw [processComment_authors, processComment_best]
    cases hb : c.hasBody with
    | false =>
      simp only [Bool.false_eq_true, if_false]
      exact h u
    | true =>
      simp only [ite_true]
      cases hauth : c.author with
      | none => exact h u
      | some a =>
        dsimp only
        by_cases hm : u ∈ dedupFirst (extract_tickers c.body stopwords)
        · rw [if_pos hm, if_pos hm]
          intro _
          exact bestStep_isSome _ _
        · rw [if_neg hm, if_neg hm]
          exact h u

theorem build_scoreboard_best_isSome (comments : List CommentRec)
    (stopwords : List String) (max_tickers : Nat) :
    ∀ it ∈ build_scoreboard comments stopwords max_tickers,
      it.best_comment.isSome := by
  intro it hit
  unfold build_scoreboard at hit
  rw [List.mem_map] at hit
  obtain ⟨kv, hkv, rfl⟩ := hit
  obtain ⟨t, as⟩ := kv
  have hmem : (t, as) ∈
      (comments.foldl (processComment stopwords) ⟨[], []⟩).ticker_authors :=
    (pySortedRev_perm sbLe _).mem_iff.mp (List.take_sublist _ _ |>.subset hkv)
  have hsa := dget_isSome_of_mem hmem
  have hsb :=
    sb_coupled stopwords comments ⟨[], []⟩
      (fun u hu => by simp [dget] at hu) t hsa
  simpa using hsb

theorem radarTickerUpd_agg (inc : ℚ) (url name : String) (st : RadarState)
    (t : String) :
    (radarTickerUpd inc url name st t).agg_score =
      dset st.agg_score t ((dget st.agg_score t).getD 0 + inc) := by
  unfold radarTickerUpd
  dsimp only
  cases dget st.best_link t with
  | none => rfl
  | some p =>
    dsimp only
    by_cases h : p.1 < inc
    · rw [if_pos h]
    · rw [if_neg h]

theorem radarTickerUpd_best_self (inc : ℚ) (url name : String) (st : RadarState)
    (t : String) :
    dget (radarTickerUpd inc url name st t).best_link t =
      bestStep (dget st.best_link t) (inc, url) := by
  unfold radarTickerUpd bestStep
  dsimp only
  cases hp : dget st.best_link t with
  | none => exact dget_dset_self _ _ _
  | some p =>
    dsimp only
    by_cases h : p.1 < inc
    · rw [if_pos h, if_pos h]
      exact dget_dset_self _ _ _
    · rw [if_neg h, if_neg h]
      exact hp

theorem radarTickerUpd_best_ne (inc : ℚ) (url name : String) (st : RadarState)
    {t t' : String} (h : t' ≠ t) :
    dget (radarTickerUpd inc url name st t).best_link t' = dget st.best_link t' := by
  unfold radarTickerUpd
  dsimp only
  cases hp : dget st.best_link t with
  | none => exact dget_dset_ne _ _ h
  | some p =>
    dsimp only
    by_cases hlt : p.1 < inc
    · rw [if_pos hlt]
      exact dget_dset_ne _ _ h
    · rw [if_neg hlt]

theorem fold_radarTickerUpd_best (inc : ℚ) (url name : String) :
    ∀ (ts : List String) (st : RadarState) (t : String), ts.Nodup →
      dget ((ts.foldl (radarTickerUpd inc url name) st).best_link) t =
        (if t ∈ ts then bestStep (dget st.best_link t) (inc, url)
         else dget st.best_link t) := by
  intro ts
  induction ts with
  | nil =>
    intro st t _
    simp
  | cons u ts ih =>
    intro st t hnd
    rw [List.nodup_cons] at hnd
    show dget ((ts.foldl _ (radarTickerUpd inc url name st u)).best_link) t = _
    rw [ih _ t hnd.2]
    by_cases htu : t = u
    · subst htu
      rw [if_neg (fun hc => hnd.1 hc), if_pos (List.mem_cons_self _ _)]
      exact radarTickerUpd_best_self inc url name st t
    · rw [radarTickerUpd_best_ne inc url name st htu]
      simp [List.mem_cons, htu]

theorem procPost_best (eng : PostRec → ℚ) (stopwords : List String) (weight : ℚ)
    (lb : Int) (now : ℚ) (name : String) (st : RadarState) (post : PostRec)
    (t : String) :
    dget (procPost eng stopwords weight lb now name st post).best_link t =
      (if within_hours post.created_utc lb now then
        if t ∈ dedupFirst
            (extract_tickers (pyStrip (post.title ++ "\n" ++ post.selftext)) stopwords) then
          bestStep (dget st.best_link t)
            (weight * eng post, "https://www.reddit.com" ++ post.permalink)
        else dget st.best_link t
      else dget st.best_link t) := by
  unfold procPost
  cases hw : within_hours post.created_utc lb now with
  | false => simp
  | true =>
    simp only [Bool.not_true, Bool.false_eq_true, if_false, ite_true]
    by_cases hts : (dedupFirst
        (extract_tickers (pyStrip (post.title ++ "\n" ++ post.selftext)) stopwords)).isEmpty
    · have hnil := List.isEmpty_iff.mp hts
      rw [if_pos hts, hnil]
      simp
    · rw [if_neg hts, fold_radarTickerUpd_best _ _ _ _ _ _ (nodup_dedupFirst _)]

theorem radar_best_obs (eng : PostRec → ℚ) (stopwords : List String) (weight : ℚ)
    (lb : Int) (now : ℚ) (name : String) :
    ∀ (posts : List PostRec) (st : RadarState) (t : String),
      dget ((posts.foldl (procPost eng stopwords weight lb now name) st).best_link) t =
        (radarObs eng stopwords weight lb now posts t).foldl bestStep
          (dget st.best_link t) := by
  intro posts
  induction posts with
  | nil =>
    intro st t
    rfl
  | cons post ps ih =>
    intro st t
    show dget ((ps.foldl _ (procPost eng stopwords weight lb now name st post)).best_link) t = _
    rw [ih]
    have hobs : radarObs eng stopwords weight lb now (post :: ps) t =
        (match
          (if within_hours post.created_utc lb now then
            if t ∈ dedupFirst
                (extract_tickers (pyStrip (post.title ++ "\n" ++ post.selftext)) stopwords) then
              some (weight * eng post, "https://www.reddit.com" ++ post.permalink)
            else none
          else none) with
        | some o => o :: radarObs eng stopwords weight lb now ps t
        | none => radarObs eng stopwords weight lb now ps t) := by
      unfold radarObs
      rw [List.filterMap_cons]
      cases
        (if within_hours post.created_utc lb now then
          if t ∈ dedupFirst
              (extract_tickers (pyStrip (post.title ++ "\n" ++ post.selftext)) stopwords) then
            some (weight * eng post, "https://www.reddit.com" ++ post.permalink)
          else none
        else none) with
      | none => rfl
      | some o => rfl
    rw [hobs, procPost_best]
    cases hw : within_hours post.created_utc lb now with
    | false => simp
    | true =>
      simp only [ite_true]
      by_cases htm : t ∈ dedupFirst
          (extract_tickers (pyStrip (post.title ++ "\n" ++ post.selftext)) stopwords)
      · rw [if_pos htm, if_pos htm]
        rfl
      · rw [if_neg htm, if_neg htm]

theorem nodup_keys_fold_radarTickerUpd (inc : ℚ) (url name : String) :
    ∀ (ts : List String) (st : RadarState),
      (st.agg_score.map Prod.fst).Nodup →
      (((ts.foldl (radarTickerUpd inc url name) st).agg_score).map Prod.fst).Nodup := by
  intro ts
  induction ts with
  | nil => intro st h; exact h
  | cons u ts ih =>
    intro st h
    refine ih _ ?_
    rw [radarTickerUpd_agg]
    exact nodup_keys_dset _ _ h

theorem nodup_keys_procPost (eng : PostRec → ℚ) (stopwords : List String)
    (weight : ℚ) (lb : Int) (now : ℚ) (name : String) (st : RadarState)
    (post : PostRec) (h : (st.agg_score.map Prod.fst).Nodup) :
    ((procPost eng stopwords weight lb now name st post).agg_score.map Prod.fst).Nodup := by
  unfold procPost
  cases hw : within_hours post.created_utc lb now with
  | false => simpa using h
  | true =>
    simp only [Bool.not_true, Bool.false_eq_true, if_false, ite_true]
    by_cases hts : (dedupFirst
        (extract_tickers (pyStrip (post.title ++ "\n" ++ post.selftext)) stopwords)).isEmpty
    · rw [if_pos hts]
      exact h
    · rw [if_neg hts]
      exact nodup_keys_fold_radarTickerUpd _ _ _ _ _ h

theorem nodup_keys_posts_fold (eng : PostRec → ℚ) (stopwords : List String)
    (weight : ℚ) (lb : Int) (now : ℚ) (name : String) :
    ∀ (posts : List PostRec) (st : RadarState),
      (st.agg_score.map Prod.fst).Nodup →
      (((posts.foldl (procPost eng stopwords weight lb now name) st).agg_score).map
        Prod.fst).Nodup := by
  intro posts
  induction posts with
  | nil => intro st h; exact h
  | cons post ps ih =>
    intro st h
    exact ih _ (nodup_keys_procPost eng stopwords weight lb now name st post h)

theorem nodup_keys_procSub (eng : PostRec → ℚ) (now : ℚ) (stopwords : List String)
    {st st2 : RadarState} {s : SubSource}
    (h : procSub eng now stopwords st s = .ok st2)
    (hn : (st.agg_score.map Prod.fst).Nodup) :
    (st2.agg_score.map Prod.fst).Nodup := by
  unfold procSub at h
  by_cases hname : pyStrip (pyStr (cget s.name (.str ""))) = ""
  · rw [if_pos hname] at h
    rw [Except.ok.injEq] at h
    subst h
    exact hn
  · rw [if_neg hname] at h
    cases hw : cfgWeight s.weight with
    | error e =>
      rw [hw] at h
      cases h
    | ok weight =>
      rw [hw] at h
      cases hl : cfgLimitPosts s.limit_posts with
      | error e =>
        rw [hl] at h
        cases h
      | ok limit_posts =>
        rw [hl] at h
        cases hb : cfgLookbackHours s.lookback_hours with
        | error e =>
          rw [hb] at h
          cases h
        | ok lookback_hours =>
          rw [hb] at h
          rw [Except.ok.injEq] at h
          subst h
          exact nodup_keys_posts_fold _ _ _ _ _ _ _ _ hn

theorem nodup_keys_radarAggAux (eng : PostRec → ℚ) (now : ℚ)
    (stopwords : List String) :
    ∀ (subs : List SubSource) (st st2 : RadarState),
      radarAggAux eng now stopwords st subs = .ok st2 →
      (st.agg_score.map Prod.fst).Nodup → (st2.agg_score.map Prod.fst).Nodup := by
  intro subs
  induction subs with
  | nil =>
    intro st st2 h hn
    rw [show radarAggAux eng now stopwords st [] = .ok st from rfl,
      Except.ok.injEq] at h
    subst h
    exact hn
  | cons s subs ih =>
    intro st st2 h hn
    unfold radarAggAux at h
    cases hs : procSub eng now stopwords st s with
    | error e =>
      rw [hs] at h
      cases h
    | ok st1 =>
      rw [hs] at h
      exact ih st1 st2 h (nodup_keys_procSub eng now stopwords hs hn)

theorem radar_sorted_pairwise (st : RadarState)
    (hnd : (st.agg_score.map Prod.fst).Nodup) :
    (pySortedRev radarLe st.agg_score).Pairwise fun a b =>
      keyLt (b.2, b.1) (a.2, a.1) = true := by
  have hsorted :=
    @pairwise_pySortedRev (String × ℚ) radarLe
      (notKeyLt_total fun kv : String × ℚ => (kv.2, kv.1))
      (notKeyLt_trans fun kv : String × ℚ => (kv.2, kv.1))
      st.agg_score
  have hperm := pySortedRev_perm radarLe st.agg_score
  have hkeys := ((hperm.map Prod.fst).nodup_iff).mpr hnd
  have hne : (pySortedRev radarLe st.agg_score).Pairwise fun a b => a.1 ≠ b.1 := by
    unfold List.Nodup at hkeys
    rw [List.pairwise_map] at hkeys
    exact hkeys
  exact (hsorted.and hne).imp fun {a b} h => by
    have h1 := h.1
    unfold radarLe at h1
    rw [Bool.not_eq_true'] at h1
    have h2 : ((a.2, a.1) : ℚ × String) ≠ (b.2, b.1) := fun hk =>
      h.2 (congrArg Prod.snd hk)
    exact keyLt_of_not_of_ne h1 h2

theorem radar_out_pairwise (eng : PostRec → ℚ) (now : ℚ) (cfg : RadarCfg)
    (stopwords : List String) (st : RadarState) (out : List RadarItem)
    (hagg : radarAgg eng now cfg stopwords = .ok st)
    (hbuild : build_cross_sub_radar eng now cfg stopwords = .ok out) :
    out.Pairwise fun x y =>
      keyLt (radarMetric st y.ticker, y.ticker) (radarMetric st x.ticker, x.ticker) =
        true := by
  unfold build_cross_sub_radar at hbuild
  by_cases hen : (!pyTruthy (cget cfg.cross_subs_enabled (.bool false))) = true
  · rw [if_pos hen, Except.ok.injEq] at hbuild
    subst hbuild
    exact List.Pairwise.nil
  · rw [if_neg hen] at hbuild
    cases hmax : cfgMaxTickers cfg.cross_max_tickers with
    | error e =>
      rw [hmax] at hbuild
      cases hbuild
    | ok max_out =>
      rw [hmax, hagg, Except.ok.injEq] at hbuild
      subst hbuild
      have hnd : (st.agg_score.map Prod.fst).Nodup :=
        nodup_keys_radarAggAux eng now stopwords cfg.cross_subs ⟨[], [], []⟩ st hagg
          (by simp)
      have hpw := radar_sorted_pairwise st hnd
      have htake :=
        List.Pairwise.sublist (List.take_sublist max_out.toNat _) hpw
      rw [List.pairwise_map]
      refine htake.imp_of_mem ?_
      intro a b ha hb hab
      have hmema : a ∈ st.agg_score :=
        (pySortedRev_perm radarLe st.agg_score).mem_iff.mp
          ((List.take_sublist _ _).subset ha)
      have hmemb : b ∈ st.agg_score :=
        (pySortedRev_perm radarLe st.agg_score).mem_iff.mp
          ((List.take_sublist _ _).subset hb)
      obtain ⟨ta, sa⟩ := a
      obtain ⟨tb, sb⟩ := b
      have hma : radarMetric st ta = sa := by
        unfold radarMetric
        rw [dget_eq_of_mem_nodup hnd hmema]
        rfl
      have hmb : radarMetric st tb = sb := by
        unfold radarMetric
        rw [dget_eq_of_mem_nodup hnd hmemb]
        rfl
      show keyLt (radarMetric st tb, tb) (radarMetric st ta, ta) = true
      rw [hma, hmb]
      exact hab

/-- C1 counterexample: one comment by one author mentioning `AAA` and `BBB`
gives both tickers an equal unique-author count of 1, yet `build_scoreboard`
lists `BBB` before `AAA` — the opposite of the ascending lexicographic order
the claim states (`"AAA" < "BBB"` in Python string order). -/
theorem C1_cex_equal_counts_descending :
    (build_scoreboard [⟨true, some "u", "AAA BBB", some 1, "/p"⟩] [] 12).map
        (fun it => (it.ticker, it.unique_authors)) = [("BBB", 1), ("AAA", 1)] ∧
      pyStrLt "AAA" "BBB" = true := by decide

/-- C1 (amended): both rankings sort by the pair (metric, ticker) with
`reverse=True`, so two tickers with equal metric appear in DESCENDING
(reverse-lexicographic) ticker order; the output is strictly descending in
the Python tuple order `keyLt` on (metric, ticker).  For the radar the
metric of an output row is its pre-rounding aggregate total
`radarMetric st ticker`. -/
theorem C1_rankings_strictly_descending :
    (∀ (comments : List CommentRec) (stopwords : List String) (max_tickers : Nat),
      (build_scoreboard comments stopwords max_tickers).Pairwise fun x y =>
        keyLt (y.unique_authors, y.ticker) (x.unique_authors, x.ticker) = true) ∧
    (∀ (eng : PostRec → ℚ) (now : ℚ) (cfg : RadarCfg) (stopwords : List String)
        (st : RadarState) (out : List RadarItem),
      radarAgg eng now cfg stopwords = .ok st →
      build_cross_sub_radar eng now cfg stopwords = .ok out →
      out.Pairwise fun x y =>
        keyLt (radarMetric st y.ticker, y.ticker)
          (radarMetric st x.ticker, x.ticker) = true) :=
  ⟨build_scoreboard_pairwise, radar_out_pairwise⟩

/-- C2: on the spec's boundary input, extraction yields exactly
`["AAPL", "F"]`: the raw recognizer emits exactly `AAPL`, `$F` and `SAID`
(nothing from `NASA1` or `TSLA2day`), bare-`F`-after-`$` is accepted by the
dollar carve-out, and `SAID` is removed by the stopword filter. -/
theorem C2_boundary_example :
    extract_tickers "NASA1 AAPL, $F said TSLA2day" modelStopwords = ["AAPL", "F"] ∧
      (tickerMatches "NASA1 AAPL, $F said TSLA2day").map (fun m => String.mk m.2) =
        ["AAPL", "$F", "SAID"] := by decide

/-- C3 counterexample: the lookbehind of TICKER_RE is `(?<![A-Z0-9$])`, so a
preceding dollar sign also suppresses a match.  In `"$$F"` the substring
`$F` at position 1 is preceded only by `$` — allowed by the claim's
uppercase-or-digit rule — yet the recognizer emits no match at all. -/
theorem C3_cex_dollar_suppresses :
    tickerMatches "$$F" = [] ∧
      boundaryMatch claimBlockBefore none (pyUpperChars "$$F".data) 1 ['$', 'F'] =
        true := by decide

/-- C3 (amended): the recognizer emits `raw` at position `j` of the
upper-cased text iff `raw` is an optional `$` followed by 1-5 uppercase
letters there, not immediately preceded by an uppercase letter, digit OR
dollar sign (`blockBefore`), and not immediately followed by an uppercase
letter or digit. -/
theorem C3_recognizer_boundary_iff (text : String) (j : Nat) (raw : List Char) :
    (j, raw) ∈ tickerMatches text ↔
      boundaryMatch blockBefore none (pyUpperChars text.data) j raw = true :=
  tickerMatches_iff text j raw

/-- C4 counterexample: a `$`-prefixed single letter is accepted before the
stopword check runs, so with stopword set `{"A"}` the text `"$A"` still
yields the stopword member `A`. -/
theorem C4_cex_dollar_single_letter_stopword :
    extract_tickers "$A" ["A"] = ["A"] ∧ "A" ∈ (["A"] : List String) := by decide

/-- C4 (amended): a token of length at least 2 that is a member of the
stopword set never appears in the output of `extract_tickers` (matching is
case-normalized: tokens are upper-cased before the membership test);
`$`-prefixed single letters bypass the stopword check. -/
theorem C4_long_stopwords_suppressed (text : String) (stopwords : List String)
    (t : String) (hmem : t ∈ extract_tickers text stopwords)
    (hlen : 2 ≤ t.length) : t ∉ stopwords :=
  extract_no_long_stopword hmem hlen

/-- C4 witness: `XY` extracted from `"XY"` with stopword set `{"ZZ"}` is not
a stopword. -/
theorem C4_long_stopwords_suppressed_witness : ("XY" : String) ∉ (["ZZ"] : List String) :=
  C4_long_stopwords_suppressed "XY" ["ZZ"] "XY" (by decide) (by decide)

/-- C5: on every structurally shaped raw match, the code's candidacy
decision (accept with the prefix-stripped ticker, or reject) equals the
spec's ordered rules: `$`-prefixed single letters accepted unconditionally,
bare single letters rejected, then stopword members rejected, then the fixed
reject-list `{"AAAA","BBBB","CCCC"}` rejected, otherwise accept. -/
theorem C5_candidacy_rule_order (raw : List Char) (sw : List String)
    (h : rawShape raw = true) :
    (if is_candidate_ticker raw sw then some (String.mk (stripDollar raw)) else none) =
      candidacySpecRules raw sw :=
  candidacy_agrees raw sw h

/-- C5 witness: the decision on the raw match `$F` with no stopwords. -/
theorem C5_candidacy_rule_order_witness :
    (if is_candidate_ticker ['$', 'F'] [] then
      some (String.mk (stripDollar ['$', 'F'])) else none) =
      candidacySpecRules ['$', 'F'] [] :=
  C5_candidacy_rule_order ['$', 'F'] [] (by decide)

/-- C6: in both aggregators the stored best-evidence entry for a ticker is
exactly the fold of `bestStep` (replace only on strictly greater strength)
over that ticker's observation sequence, and that fold always returns the
FIRST observation attaining the maximum strength (ties keep the
earlier-seen evidence). -/
theorem C6_best_evidence_first_max :
    (∀ (comments : List CommentRec) (stopwords : List String) (t : String),
      dget ((comments.foldl (processComment stopwords)
          (⟨[], []⟩ : SBState)).ticker_best_comment) t =
        bestFold (sbObs comments stopwords t)) ∧
    (∀ (eng : PostRec → ℚ) (stopwords : List String) (weight : ℚ) (lb : Int)
        (now : ℚ) (name : String) (posts : List PostRec) (t : String),
      dget ((posts.foldl (procPost eng stopwords weight lb now name)
          (⟨[], [], []⟩ : RadarState)).best_link) t =
        bestFold (radarObs eng stopwords weight lb now posts t)) ∧
    (∀ l : List (Int × String), bestFold l = firstMax l) ∧
    (∀ l : List (ℚ × String), bestFold l = firstMax l) :=
  ⟨fun comments sw t => sbState_best_eq_bestFold comments sw t,
   fun eng sw w lb now name posts t => by rw [radar_best_obs]; rfl,
   fun l => bestFold_eq_firstMax l,
   fun l => bestFold_eq_firstMax l⟩

/-- C7 counterexample: a ticker observed only in a comment with a negative
score still gets a present (non-null) best-evidence link — the first
observation always sets evidence because `prev is None` triggers the write,
so the claim's described output with an absent evidence field cannot
occur. -/
theorem C7_cex_nonpositive_scores_have_evidence :
    build_scoreboard [⟨true, some "a", "GME", some (-5), "/p1"⟩] [] 12 =
      [⟨"GME", 1, some "https://www.reddit.com/p1"⟩] := by decide

/-- C7 (amended): every ticker in the ranked output of `build_scoreboard`
has a PRESENT best-evidence field (the first comment mentioning the ticker
sets it, whatever its score); an absent evidence field is impossible. -/
theorem C7_evidence_always_present (comments : List CommentRec)
    (stopwords : List String) (max_tickers : Nat) :
    ∀ it ∈ build_scoreboard comments stopwords max_tickers,
      it.best_comment.isSome :=
  build_scoreboard_best_isSome comments stopwords max_tickers

/-- C7 witness: the single-comment run of the counterexample input, through
the amended theorem. -/
theorem C7_evidence_always_present_witness :
    (⟨"GME", 1, some "https://www.reddit.com/p1"⟩ : ScoreItem).best_comment.isSome :=
  C7_evidence_always_present [⟨true, some "a", "GME", some (-5), "/p1"⟩] [] 12
    ⟨"GME", 1, some "https://www.reddit.com/p1"⟩ (by decide)

/-- C8 counterexample: a source whose `weight` is the non-numeric string
`"abc"` makes the whole aggregation raise (`float("abc")` has no try/except
around it), instead of falling back to the 0.35 default. -/
theorem C8_cex_malformed_weight_raises :
    build_cross_sub_radar (fun _ => 1) 0
      ⟨some (.bool true),
        [⟨some (.str "x"), some (.str "abc"), Option.none, Option.none, Option.none, []⟩],
        Option.none⟩ [] =
      Except.error "could not convert string to float: abc" := rfl

/-- C8 (amended): a MISSING numeric configuration field falls back to its
stated default (weight 0.35, max posts 40, lookback 24 h, output cap 8),
but a numeric field held by a non-numeric, non-empty string raises instead
of defaulting — the run aborts on malformed numeric configuration. -/
theorem C8_numeric_config_behavior :
    (cfgWeight Option.none = Except.ok (0.35 : ℚ)) ∧
    (cfgLimitPosts Option.none = Except.ok 40) ∧
    (cfgLookbackHours Option.none = Except.ok 24) ∧
    (cfgMaxTickers Option.none = Except.ok 8) ∧
    (∀ s : String, parseFloat? s = Option.none → s ≠ "" →
      cfgWeight (some (.str s)) =
        Except.error ("could not convert string to float: " ++ s)) ∧
    (∀ s : String, parseIntStr? s = Option.none → s ≠ "" →
      cfgLimitPosts (some (.str s)) =
        Except.error ("invalid literal for int() with base 10: " ++ s)) := by
  refine ⟨?_, rfl, rfl, rfl, ?_, ?_⟩
  · simp [cfgWeight, cget, pyOr, pyTruthy_float_default, pyFloat]
  · intro s hp hne
    simp [cfgWeight, cget, pyOr, pyTruthy, hne, pyFloat, hp]
  · intro s hp hne
    simp [cfgLimitPosts, cget, pyOr, pyTruthy, hne, pyInt, hp]

/-- C9: a post created strictly before `now` minus the source's lookback
window leaves the whole radar state (score totals, best links, best
sources) unchanged. -/
theorem C9_out_of_window_post_no_effect (eng : PostRec → ℚ)
    (stopwords : List String) (weight : ℚ) (lb : Int) (now : ℚ) (name : String)
    (st : RadarState) (post : PostRec)
    (h : post.created_utc < now - ((3600 * lb : Int) : ℚ)) :
    procPost eng stopwords weight lb now name st post = st := by
  have hw : within_hours post.created_utc lb now = false := by
    unfold within_hours
    rw [decide_eq_false_iff_not]
    exact not_le.mpr h
  unfold procPost
  simp [hw]

/-- C9 witness: a post 25 hours old against a 24-hour window changes
nothing. -/
theorem C9_out_of_window_post_no_effect_witness :
    procPost (fun _ => 1) [] 1 24 0 "x" ⟨[], [], []⟩
      ⟨-90000, "T", "", Option.none, Option.none, "/p"⟩ = ⟨[], [], []⟩ :=
  C9_out_of_window_post_no_effect (fun _ => 1) [] 1 24 0 "x" ⟨[], [], []⟩
    ⟨-90000, "T", "", Option.none, Option.none, "/p"⟩ (by norm_num)

/-- C10: a numeric configuration field explicitly set to zero is falsy in
Python, so `value or default` replaces it by the default: weight 0 becomes
0.35, limit_posts 0 becomes 40, lookback_hours 0 becomes 24, and an output
cap of 0 becomes 8. -/
theorem C10_zero_config_defaults :
    cfgWeight (some (.int 0)) = Except.ok (0.35 : ℚ) ∧
    cfgWeight (some (.float 0)) = Except.ok (0.35 : ℚ) ∧
    cfgLimitPosts (some (.int 0)) = Except.ok 40 ∧
    cfgLookbackHours (some (.int 0)) = Except.ok 24 ∧
    cfgMaxTickers (some (.int 0)) = Except.ok 8 := by
  refine ⟨rfl, ?_, rfl, rfl, rfl⟩
  simp [cfgWeight, cget, pyOr, pyTruthy, pyFloat]
